import Mathlib

/-!
Verification of the py2mermaid flowchart synthesizer (both repository
iterations: `py2mermaid.py`, called V1 below, and `py2mermaid_v2.py`,
the default).  Python strings are modelled as `List Char`; `str.replace`
is modelled by `replaceL` (leftmost, non-overlapping, scan continues
after each replacement).  Graph nodes are identified by their creation
index, which models Python object identity (`Node.id` is `"n" ++ index`).
-/

namespace P2M

/-- Convenience: the character list of a string literal. -/
def chars (s : String) : List Char := s.data

/-! ## Python `str.replace`, for non-empty patterns `p0 :: pr` -/

/-- Fueled scanner behind `replaceL`; the fuel is always at least the
length of the text, so the exhaustion branch is never taken. -/
def replaceLF (p0 : Char) (pr rep : List Char) : Nat → List Char → List Char
  | _, [] => []
  | 0, s => s
  | fuel + 1, c :: cs =>
    if c = p0 ∧ pr.isPrefixOf cs = true then
      rep ++ replaceLF p0 pr rep fuel (cs.drop pr.length)
    else
      c :: replaceLF p0 pr rep fuel cs

/-- Model of Python `text.replace(p0 :: pr, rep)`: leftmost,
non-overlapping occurrences, scanning resumes after the replacement. -/
def replaceL (p0 : Char) (pr rep : List Char) (s : List Char) : List Char :=
  replaceLF p0 pr rep s.length s

theorem replaceLF_congr (p0 : Char) (pr rep : List Char) :
    ∀ (f1 f2 : Nat) (s : List Char), s.length ≤ f1 → s.length ≤ f2 →
      replaceLF p0 pr rep f1 s = replaceLF p0 pr rep f2 s := by
  intro f1
  induction f1 with
  | zero =>
    intro f2 s h1 h2
    rcases s with _ | ⟨c, cs⟩
    · rcases f2 with _ | m <;> rfl
    · simp at h1
  | succ n ih =>
    intro f2 s h1 h2
    rcases s with _ | ⟨c, cs⟩
    · rcases f2 with _ | m <;> rfl
    · rcases f2 with _ | m
      · simp at h2
      · simp only [List.length_cons] at h1 h2
        simp only [replaceLF]
        by_cases h : c = p0 ∧ pr.isPrefixOf cs = true
        · rw [if_pos h, if_pos h,
            ih m (cs.drop pr.length) (by simp only [List.length_drop]; omega)
              (by simp only [List.length_drop]; omega)]
        · rw [if_neg h, if_neg h, ih m cs (by omega) (by omega)]

theorem replaceL_nil (p0 : Char) (pr rep : List Char) :
    replaceL p0 pr rep [] = [] := rfl

theorem replaceL_cons_pos (p0 : Char) (pr rep : List Char) (c : Char) (cs : List Char)
    (h : c = p0 ∧ pr.isPrefixOf cs = true) :
    replaceL p0 pr rep (c :: cs) = rep ++ replaceL p0 pr rep (cs.drop pr.length) := by
  unfold replaceL
  simp only [List.length_cons, replaceLF, if_pos h]
  rw [replaceLF_congr p0 pr rep cs.length (cs.drop pr.length).length (cs.drop pr.length)
    (by simp only [List.length_drop]; omega) le_rfl]

theorem replaceL_cons_neg (p0 : Char) (pr rep : List Char) (c : Char) (cs : List Char)
    (h : ¬ (c = p0 ∧ pr.isPrefixOf cs = true)) :
    replaceL p0 pr rep (c :: cs) = c :: replaceL p0 pr rep cs := by
  unfold replaceL
  simp only [List.length_cons, replaceLF, if_neg h]

/-! ## Label escaping

`Graph._esc_mermaid_label` from `py2mermaid_v2.py`: eight sequential
`str.replace` calls (backslash, double quote, CRLF, CR, LF, `<`, `>`,
backtick). -/

/-- `py2mermaid_v2.Graph._esc_mermaid_label`. -/
def escMermaidLabel (s : List Char) : List Char :=
  let t1 := replaceL '\\' [] ['\\', '\\'] s
  let t2 := replaceL '\"' [] ['\\', '\"'] t1
  let t3 := replaceL '\r' ['\n'] ['\n'] t2
  let t4 := replaceL '\r' [] ['\n'] t3
  let t5 := replaceL '\n' [] ['\\', 'n'] t4
  let t6 := replaceL '<' [] ['&', 'l', 't', ';'] t5
  let t7 := replaceL '>' [] ['&', 'g', 't', ';'] t6
  replaceL '`' [] ['\\', '`'] t7

/-- The label escaping performed inline by `py2mermaid.py`'s (V1)
serializer `fmt`: only backtick then newline are replaced. -/
def escMermaidLabelV1 (s : List Char) : List Char :=
  replaceL '\n' [] ['\\', 'n'] (replaceL '`' [] ['\\', '`'] s)

/-- Undoing the five escaping substitutions of `_esc_mermaid_label` in
reverse order (backtick, angle brackets, embedded newline, double quote,
backslash), each undo being the reversed `str.replace`. -/
def unescMermaidLabel (s : List Char) : List Char :=
  let t1 := replaceL '\\' ['`'] ['`'] s
  let t2 := replaceL '&' ['g', 't', ';'] ['>'] t1
  let t3 := replaceL '&' ['l', 't', ';'] ['<'] t2
  let t4 := replaceL '\\' ['n'] ['\n'] t3
  let t5 := replaceL '\\' ['\"'] ['\"'] t4
  replaceL '\\' ['\\'] ['\\'] t5

/-! ## Graph model -/

inductive Kind where
  | start
  | op
  | cond
  | stop
deriving DecidableEq, Repr

structure Node where
  kind : Kind
  label : List Char
  nexts : List Nat
deriving DecidableEq, Repr

structure Graph where
  title : List Char
  nodes : List Node
deriving DecidableEq, Repr

/-- `Graph.add`: append a node, return it (as its creation index,
which is what Python's `n.id = f"n{len(self.nodes)}"` records). -/
def Graph.add (g : Graph) (k : Kind) (l : List Char) : Graph × Nat :=
  (⟨g.title, g.nodes ++ [⟨k, l, []⟩]⟩, g.nodes.length)

/-- `Graph.__init__`: fresh graph with a start node (index 0) and an
end node (index 1). -/
def mkGraph (title : List Char) : Graph :=
  let g0 : Graph := ⟨title, []⟩
  let (g1, _) := g0.add .start (chars "Start: " ++ title)
  (g1.add .stop (chars "End")).1

def nodeAt (g : Graph) (i : Nat) : Node := g.nodes.getD i ⟨.op, [], []⟩

def nextsOf (g : Graph) (i : Nat) : List Nat := (nodeAt g i).nexts

/-- `Graph.link`: append `b` to `a`'s successor list unless already
present. -/
def Graph.link (g : Graph) (a b : Nat) : Graph :=
  match g.nodes[a]? with
  | none => g
  | some n =>
    if b ∈ n.nexts then g
    else ⟨g.title, g.nodes.set a ⟨n.kind, n.label, n.nexts ++ [b]⟩⟩

/-- Edge relation: `b` is among `a`'s successors. -/
def edgeIn (g : Graph) (a b : Nat) : Prop := b ∈ nextsOf g a

instance (g : Graph) (a b : Nat) : Decidable (edgeIn g a b) := by
  unfold edgeIn; infer_instance

/-! ## Serializer (`Graph.to_mermaid`, py2mermaid_v2) -/

/-- `Node.id`, assigned at creation: `"n"` followed by the creation
index in decimal. -/
def nodeId (i : Nat) : List Char := 'n' :: (Nat.repr i).data

/-- The `fmt` helper of `py2mermaid_v2.Graph.to_mermaid`: one node
declaration, shaped by kind, embedding the escaped label. -/
def fmtNode (i : Nat) (n : Node) : List Char :=
  let text := escMermaidLabel n.label
  match n.kind with
  | .cond => nodeId i ++ ['\x7b', '\"'] ++ text ++ ['\"', '\x7d']
  | .stop => nodeId i ++ chars "([ " ++ text ++ chars " ])"
  | .start => nodeId i ++ chars "([ " ++ text ++ chars " ])"
  | .op => nodeId i ++ chars "[\"" ++ text ++ chars "\"]"

/-- The `fmt` helper of `py2mermaid.py` (V1): same shapes, but the
label is only backtick/newline escaped. -/
def fmtNodeV1 (i : Nat) (n : Node) : List Char :=
  let text := escMermaidLabelV1 n.label
  match n.kind with
  | .cond => nodeId i ++ ['\x7b', '\"'] ++ text ++ ['\"', '\x7d']
  | .stop => nodeId i ++ chars "([ " ++ text ++ chars " ])"
  | .start => nodeId i ++ chars "([ " ++ text ++ chars " ])"
  | .op => nodeId i ++ chars "[\"" ++ text ++ chars "\"]"

/-- Edge-label choice of the serializer: condition nodes label their
first two successors `"True"` and `"False"`, everything else is
unlabeled. -/
def edgeLabelFor (k : Kind) (idx : Nat) : List Char :=
  if k = .cond then
    if idx = 0 then chars "True" else if idx = 1 then chars "False" else []
  else []

/-- One serialized edge line (labeled when `lbl` is non-empty). -/
def edgeLine (i m : Nat) (lbl : List Char) : List Char :=
  if lbl = [] then chars "    " ++ nodeId i ++ chars " --> " ++ nodeId m
  else chars "    " ++ nodeId i ++ chars " -->|" ++ lbl ++ chars "| " ++ nodeId m

/-- The `for idx, m in enumerate(n.nexts)` loop body of `to_mermaid`. -/
def edgeLinesAux (i : Nat) (k : Kind) : Nat → List Nat → List (List Char)
  | _, [] => []
  | idx, m :: ms => edgeLine i m (edgeLabelFor k idx) :: edgeLinesAux i k (idx + 1) ms

/-- All edge lines emitted for one node. -/
def edgeLinesFor (i : Nat) (n : Node) : List (List Char) :=
  edgeLinesAux i n.kind 0 n.nexts

/-- Node declaration lines, in creation order. -/
def declLines : Nat → List Node → List (List Char)
  | _, [] => []
  | i, n :: ns => (chars "    " ++ fmtNode i n) :: declLines (i + 1) ns

/-- Edge lines for all nodes, in node-then-edge-index order. -/
def edgeBlocks : Nat → List Node → List (List Char)
  | _, [] => []
  | i, n :: ns => edgeLinesFor i n ++ edgeBlocks (i + 1) ns

/-- `"\n".join(lines)`. -/
def joinNL : List (List Char) → List Char
  | [] => []
  | [l] => l
  | l :: ls => l ++ '\n' :: joinNL ls

/-- The lines of `Graph.to_mermaid` output (header, node declarations,
edge lines). -/
def toMermaidLines (g : Graph) : List (List Char) :=
  chars "flowchart TD" :: (declLines 0 g.nodes ++ edgeBlocks 0 g.nodes)

/-- `Graph.to_mermaid` (py2mermaid_v2). -/
def toMermaid (g : Graph) : List Char := joinNL (toMermaidLines g)

/-! ## Statement trees

Expressions appear in the builder only through `ast.unparse` (the
`_label_expr` rendering), so they are modelled by their rendered text. -/

inductive Stmt where
  | ifS (test : List Char) (body orelse : List Stmt)
  | forS (target iter : List Char) (body : List Stmt)
  | whileS (test : List Char) (body : List Stmt)
  | withS (items : List (List Char)) (body : List Stmt)
  | tryS (body : List Stmt) (handlers : List (List Char × List Stmt))
      (orelse finalbody : List Stmt)
  | funcDef (name : List Char) (params : List (List Char)) (body : List Stmt)
  | classDef (name : List Char)
  | ret (value : List Char)
  | raiseS (exc : List Char)
  | brk
  | cont
  | matchS (subject : List Char) (cases : List (List Char × List Stmt))
  | simple (txt : List Char)

/-- `sep.join(xs)`. -/
def joinSep (sep : List Char) : List (List Char) → List Char
  | [] => []
  | [x] => x
  | x :: xs => x ++ sep ++ joinSep sep xs

/-- Python `str.isspace` characters relevant to `str.strip`. -/
def isSpaceChar (c : Char) : Bool :=
  c = ' ' ∨ c = '\t' ∨ c = '\n' ∨ c = '\r' ∨ c = '\x0b' ∨ c = '\x0c'

/-- Python `str.strip()`. -/
def pyStrip (s : List Char) : List Char :=
  ((s.dropWhile isSpaceChar).reverse.dropWhile isSpaceChar).reverse

/-- Handler label: `f"except {rendered or ''}".strip()`. -/
def exceptLabel (typ : List Char) : List Char := pyStrip (chars "except " ++ typ)

/-- `for e in exits: self.g.link(e, target)`. -/
def linkAll (g : Graph) (xs : List Nat) (t : Nat) : Graph :=
  xs.foldl (fun h e => h.link e t) g

/-! ## Builder (py2mermaid_v2) -/

mutual

/-- `Builder._build_stmt` of py2mermaid_v2: extend the graph from tail
node `last`, return the new tail. -/
def buildStmt (g : Graph) (last : Nat) : Stmt → Graph × Nat
  | .ifS test body orelse =>
    let p1 := g.add .cond (chars "if " ++ test)
    let g2 := p1.1.link last p1.2
    let p3 := buildBlock g2 p1.2 body
    if orelse.isEmpty then
      let p4 := p3.1.add .op (chars "merge")
      ((p4.1.link p3.2 p4.2).link p1.2 p4.2, p4.2)
    else
      let p4 := buildBlock p3.1 p1.2 orelse
      let p5 := p4.1.add .op (chars "merge")
      ((p5.1.link p3.2 p5.2).link p4.2 p5.2, p5.2)
  | .forS target iter body =>
    let p1 := g.add .cond (chars "for " ++ target ++ chars " in " ++ iter)
    let g2 := p1.1.link last p1.2
    let p3 := buildBlock g2 p1.2 body
    let g4 := p3.1.link p3.2 p1.2
    let p5 := g4.add .op (chars "after for")
    (p5.1.link p1.2 p5.2, p5.2)
  | .whileS test body =>
    let p1 := g.add .cond (chars "while " ++ test)
    let g2 := p1.1.link last p1.2
    let p3 := buildBlock g2 p1.2 body
    let g4 := p3.1.link p3.2 p1.2
    let p5 := g4.add .op (chars "after while")
    (p5.1.link p1.2 p5.2, p5.2)
  | .withS items body =>
    let p1 := g.add .op (chars "with " ++ joinSep (chars "; ") items)
    let g2 := p1.1.link last p1.2
    buildBlock g2 p1.2 body
  | .tryS body handlers orelse finalbody =>
    let p1 := g.add .op (chars "try")
    let g2 := p1.1.link last p1.2
    let p3 := buildBlock g2 p1.2 body
    let p4 := buildHandlers p3.1 p1.2 handlers
    let p5 :=
      if orelse.isEmpty then (p4.1, p3.2 :: p4.2)
      else
        let q1 := p4.1.add .op (chars "else")
        let q2 := q1.1.link p3.2 q1.2
        let q3 := buildBlock q2 q1.2 orelse
        (q3.1, q3.2 :: p4.2)
    if finalbody.isEmpty then
      let p6 := p5.1.add .op (chars "after try")
      (linkAll p6.1 p5.2 p6.2, p6.2)
    else
      let p6 := p5.1.add .op (chars "finally")
      let g7 := linkAll p6.1 p5.2 p6.2
      buildBlock g7 p6.2 finalbody
  | .funcDef name _ _ =>
    let p1 := g.add .op (chars "def " ++ name ++ chars "(...)")
    (p1.1.link last p1.2, p1.2)
  | .classDef name =>
    let p1 := g.add .op (chars "class " ++ name)
    (p1.1.link last p1.2, p1.2)
  | .ret value =>
    let p1 := g.add .op (chars "return " ++ value)
    ((p1.1.link last p1.2).link p1.2 1, p1.2)
  | .raiseS exc =>
    let p1 := g.add .op (chars "raise " ++ exc)
    ((p1.1.link last p1.2).link p1.2 1, p1.2)
  | .brk =>
    let p1 := g.add .op (chars "break")
    (p1.1.link last p1.2, p1.2)
  | .cont =>
    let p1 := g.add .op (chars "continue")
    (p1.1.link last p1.2, p1.2)
  | .matchS subject cases =>
    let p1 := g.add .op (chars "match " ++ subject)
    let g2 := p1.1.link last p1.2
    let p3 := buildCases g2 p1.2 cases
    let p4 := p3.1.add .op (chars "after match")
    (linkAll p4.1 p3.2 p4.2, p4.2)
  | .simple txt =>
    let p1 := g.add .op txt
    (p1.1.link last p1.2, p1.2)
termination_by structural s => s

/-- `Builder._build_block`: thread a statement sequence through the
current tail. -/
def buildBlock (g : Graph) (last : Nat) : List Stmt → Graph × Nat
  | [] => (g, last)
  | s :: rest =>
    let p := buildStmt g last s
    buildBlock p.1 p.2 rest
termination_by structural l => l

/-- The `for h in s.handlers` loop of the try rule: one op node per
handler, linked from the try node, plus the handler-body tails. -/
def buildHandlers (g : Graph) (hdr : Nat) :
    List (List Char × List Stmt) → Graph × List Nat
  | [] => (g, [])
  | (typ, hbody) :: rest =>
    let p1 := g.add .op (exceptLabel typ)
    let g2 := p1.1.link hdr p1.2
    let p3 := buildBlock g2 p1.2 hbody
    let p4 := buildHandlers p3.1 hdr rest
    (p4.1, p3.2 :: p4.2)
termination_by structural hs => hs

/-- The `for case in s.cases` loop of the match rule. -/
def buildCases (g : Graph) (hd : Nat) :
    List (List Char × List Stmt) → Graph × List Nat
  | [] => (g, [])
  | (pat, cbody) :: rest =>
    let p1 := g.add .op (chars "case " ++ pat)
    let g2 := p1.1.link hd p1.2
    let p3 := buildBlock g2 p1.2 cbody
    let p4 := buildCases p3.1 hd rest
    (p4.1, p3.2 :: p4.2)
termination_by structural cs => cs

end

/-- `Builder.build_module`: thread the top-level statements from start
(index 0) and link the final tail to end (index 1). -/
def buildModule (title : List Char) (stmts : List Stmt) : Graph :=
  let g0 := mkGraph title
  let p := buildBlock g0 0 stmts
  p.1.link p.2 1

/-- The function signature label `f"{name}({', '.join(params)})"`. -/
def sigOf (name : List Char) (params : List (List Char)) : List Char :=
  name ++ ['('] ++ joinSep (chars ", ") params ++ [')']

/-- `Builder.build_function`: fresh graph titled with the signature,
function body threaded from start, final tail linked to end. -/
def buildFunction (name : List Char) (params : List (List Char))
    (body : List Stmt) : Graph :=
  let g0 := mkGraph (sigOf name params)
  let p := buildBlock g0 0 body
  p.1.link p.2 1

/-- `build_for_file` minus the file I/O: the `(title, mermaid_text)`
pairs for the module scope and each top-level function. -/
def buildForFile (fileName : List Char) (tree : List Stmt) :
    List (List Char × List Char) :=
  let g := buildModule (fileName ++ chars " (module)") tree
  (g.title, toMermaid g) ::
    tree.filterMap (fun s =>
      match s with
      | .funcDef name params body =>
        let gf := buildFunction name params body
        some (gf.title, toMermaid gf)
      | _ => none)

/-! ## Builder (py2mermaid.py, V1)

Differences from v2: no `with`/`match`/`class` rules (they fall to the
generic case, labeled with the statement class name), and the `try`
rule ignores the `else` clause entirely. -/

mutual

/-- `Builder._build_stmt` of py2mermaid.py (V1). -/
def buildStmtV1 (g : Graph) (last : Nat) : Stmt → Graph × Nat
  | .ifS test body orelse =>
    let p1 := g.add .cond (chars "if " ++ test)
    let g2 := p1.1.link last p1.2
    let p3 := buildBlockV1 g2 p1.2 body
    if orelse.isEmpty then
      let p4 := p3.1.add .op (chars "merge")
      ((p4.1.link p3.2 p4.2).link p1.2 p4.2, p4.2)
    else
      let p4 := buildBlockV1 p3.1 p1.2 orelse
      let p5 := p4.1.add .op (chars "merge")
      ((p5.1.link p3.2 p5.2).link p4.2 p5.2, p5.2)
  | .forS target iter body =>
    let p1 := g.add .cond (chars "for " ++ target ++ chars " in " ++ iter)
    let g2 := p1.1.link last p1.2
    let p3 := buildBlockV1 g2 p1.2 body
    let g4 := p3.1.link p3.2 p1.2
    let p5 := g4.add .op (chars "after for")
    (p5.1.link p1.2 p5.2, p5.2)
  | .whileS test body =>
    let p1 := g.add .cond (chars "while " ++ test)
    let g2 := p1.1.link last p1.2
    let p3 := buildBlockV1 g2 p1.2 body
    let g4 := p3.1.link p3.2 p1.2
    let p5 := g4.add .op (chars "after while")
    (p5.1.link p1.2 p5.2, p5.2)
  | .tryS body handlers _ finalbody =>
    let p1 := g.add .op (chars "try")
    let g2 := p1.1.link last p1.2
    let p3 := buildBlockV1 g2 p1.2 body
    let p4 := buildHandlersV1 p3.1 p1.2 handlers
    if finalbody.isEmpty then
      let p6 := p4.1.add .op (chars "after try")
      (linkAll p6.1 (p3.2 :: p4.2) p6.2, p6.2)
    else
      let p6 := p4.1.add .op (chars "finally")
      let g7 := linkAll p6.1 (p3.2 :: p4.2) p6.2
      buildBlockV1 g7 p6.2 finalbody
  | .funcDef name _ _ =>
    let p1 := g.add .op (chars "def " ++ name ++ chars "(...)")
    (p1.1.link last p1.2, p1.2)
  | .ret value =>
    let p1 := g.add .op (chars "return " ++ value)
    ((p1.1.link last p1.2).link p1.2 1, p1.2)
  | .raiseS exc =>
    let p1 := g.add .op (chars "raise " ++ exc)
    ((p1.1.link last p1.2).link p1.2 1, p1.2)
  | .brk =>
    let p1 := g.add .op (chars "break")
    (p1.1.link last p1.2, p1.2)
  | .cont =>
    let p1 := g.add .op (chars "continue")
    (p1.1.link last p1.2, p1.2)
  | .withS _ _ =>
    let p1 := g.add .op (chars "With")
    (p1.1.link last p1.2, p1.2)
  | .matchS _ _ =>
    let p1 := g.add .op (chars "Match")
    (p1.1.link last p1.2, p1.2)
  | .classDef _ =>
    let p1 := g.add .op (chars "ClassDef")
    (p1.1.link last p1.2, p1.2)
  | .simple txt =>
    let p1 := g.add .op txt
    (p1.1.link last p1.2, p1.2)
termination_by structural s => s

/-- `Builder._build_block` of V1. -/
def buildBlockV1 (g : Graph) (last : Nat) : List Stmt → Graph × Nat
  | [] => (g, last)
  | s :: rest =>
    let p := buildStmtV1 g last s
    buildBlockV1 p.1 p.2 rest
termination_by structural l => l

/-- The handler loop of V1's try rule. -/
def buildHandlersV1 (g : Graph) (hdr : Nat) :
    List (List Char × List Stmt) → Graph × List Nat
  | [] => (g, [])
  | (typ, hbody) :: rest =>
    let p1 := g.add .op (exceptLabel typ)
    let g2 := p1.1.link hdr p1.2
    let p3 := buildBlockV1 g2 p1.2 hbody
    let p4 := buildHandlersV1 p3.1 hdr rest
    (p4.1, p3.2 :: p4.2)
termination_by structural hs => hs

end

/-- `Builder.build_module` of V1. -/
def buildModuleV1 (title : List Char) (stmts : List Stmt) : Graph :=
  let g0 := mkGraph title
  let p := buildBlockV1 g0 0 stmts
  p.1.link p.2 1

/-! ## Well-formedness of parsed statement trees

Python's grammar guarantees a parsed `match` statement has at least one
`case` clause; that is the only syntactic fact the structural-closure
invariant needs. -/

mutual

def wfS : Stmt → Bool
  | .ifS _ b o => wfBlock b && wfBlock o
  | .forS _ _ b => wfBlock b
  | .whileS _ b => wfBlock b
  | .withS _ b => wfBlock b
  | .tryS b hs o f => wfBlock b && wfPairs hs && wfBlock o && wfBlock f
  | .matchS _ cs => !cs.isEmpty && wfPairs cs
  | _ => true
termination_by structural s => s

def wfBlock : List Stmt → Bool
  | [] => true
  | s :: rest => wfS s && wfBlock rest
termination_by structural l => l

def wfPairs : List (List Char × List Stmt) → Bool
  | [] => true
  | (_, b) :: rest => wfBlock b && wfPairs rest
termination_by structural ps => ps

end

/-! ## Spec-side definitions for the escaping contract

The specification (§4.3) describes label escaping as five substitutions
in a fixed order.  These definitions spell out each substitution
directly from the spec's words, to be compared with the implementation
`escMermaidLabel`. -/

/-- Apply a character-wise substitution to a whole string. -/
def cmap (f : Char → List Char) : List Char → List Char
  | [] => []
  | c :: cs => f c ++ cmap f cs

/-- Spec substitution 1: each backslash is doubled. -/
def specSub1 (s : List Char) : List Char :=
  cmap (fun c => if c = '\\' then ['\\', '\\'] else [c]) s

/-- Spec substitution 2: each double quote is escaped. -/
def specSub2 (s : List Char) : List Char :=
  cmap (fun c => if c = '\"' then ['\\', '\"'] else [c]) s

/-- CRLF and lone CR normalized to a single linebreak. -/
def normNewlines : List Char → List Char
  | [] => []
  | [c] => if c = '\r' then ['\n'] else [c]
  | c1 :: c2 :: cs =>
    if c1 = '\r' then
      if c2 = '\n' then '\n' :: normNewlines cs
      else '\n' :: normNewlines (c2 :: cs)
    else c1 :: normNewlines (c2 :: cs)

/-- Spec substitution 3: normalize CRLF and lone CR to a linebreak,
then replace every linebreak by the two-character sequence `\n`. -/
def specSub3 (s : List Char) : List Char :=
  cmap (fun c => if c = '\n' then ['\\', 'n'] else [c]) (normNewlines s)

/-- Spec substitution 4: each angle bracket becomes its character
entity. -/
def specSub4 (s : List Char) : List Char :=
  cmap (fun c =>
    if c = '<' then ['&', 'l', 't', ';']
    else if c = '>' then ['&', 'g', 't', ';'] else [c]) s

/-- Spec substitution 5: each backtick is escaped. -/
def specSub5 (s : List Char) : List Char :=
  cmap (fun c => if c = '`' then ['\\', '`'] else [c]) s

/-! ## Stage-wise characterization of escaping (for the round-trip) -/

/-- Character-wise form of the full escaping (valid on CR-free input). -/
def escChar5 (c : Char) : List Char :=
  if c = '\\' then ['\\', '\\']
  else if c = '\"' then ['\\', '\"']
  else if c = '\n' then ['\\', 'n']
  else if c = '<' then ['&', 'l', 't', ';']
  else if c = '>' then ['&', 'g', 't', ';']
  else if c = '`' then ['\\', '`'] else [c]

/-- After undoing the backtick substitution. -/
def escChar4 (c : Char) : List Char :=
  if c = '\\' then ['\\', '\\']
  else if c = '\"' then ['\\', '\"']
  else if c = '\n' then ['\\', 'n']
  else if c = '<' then ['&', 'l', 't', ';']
  else if c = '>' then ['&', 'g', 't', ';'] else [c]

/-- After also undoing the `>` entity. -/
def escChar4a (c : Char) : List Char :=
  if c = '\\' then ['\\', '\\']
  else if c = '\"' then ['\\', '\"']
  else if c = '\n' then ['\\', 'n']
  else if c = '<' then ['&', 'l', 't', ';'] else [c]

/-- After also undoing the `<` entity. -/
def escChar3 (c : Char) : List Char :=
  if c = '\\' then ['\\', '\\']
  else if c = '\"' then ['\\', '\"']
  else if c = '\n' then ['\\', 'n'] else [c]

/-- After also undoing the newline substitution. -/
def escChar2 (c : Char) : List Char :=
  if c = '\\' then ['\\', '\\']
  else if c = '\"' then ['\\', '\"'] else [c]

/-- After also undoing the quote substitution. -/
def escChar1 (c : Char) : List Char :=
  if c = '\\' then ['\\', '\\'] else [c]

/-- Tests whether a string begins with the letter `n`. -/
def headIsN : List Char → Bool
  | 'n' :: _ => true
  | _ => false

/-- Labels for which the reversed substitution sequence inverts the
escaping: no carriage return, no ampersand, and no backslash
immediately followed by the letter `n`. -/
def safeLabel : List Char → Bool
  | [] => true
  | c :: cs =>
    !(c == '\r' || c == '&' || (c == '\\' && headIsN cs)) && safeLabel cs

/-! ## Structural predicates on graphs -/

/-- All nodes except the end node (index 1) and the listed open tails
have at least one outgoing edge. -/
def closedE (g : Graph) (S : List Nat) : Prop :=
  ∀ i, i < g.nodes.length → i ≠ 1 → i ∉ S → nextsOf g i ≠ []

/-- Every edge of the graph points at an existing node. -/
def targetsOk (g : Graph) : Prop :=
  ∀ a b, edgeIn g a b → b < g.nodes.length

/-- Graphs reachable from `Graph.__init__` by `add` and `link` — i.e.
every graph state the program can ever be in. -/
inductive Reachable : Graph → Prop where
  | init (title : List Char) : Reachable (mkGraph title)
  | addNode (g : Graph) (k : Kind) (l : List Char) :
      Reachable g → Reachable (g.add k l).1
  | linkNodes (g : Graph) (a b : Nat) :
      Reachable g → Reachable (g.link a b)

/-- `Grows g0 last g`: `g` is obtained from `g0` by adding nodes and
adding links whose source is either `last` or a node created after
`g0`, and whose target exists at link time.  Every synthesis step of
the Builder grows the graph in exactly this way. -/
inductive Grows (g0 : Graph) (last : Nat) : Graph → Prop where
  | base : Grows g0 last g0
  | addN (g : Graph) (k : Kind) (l : List Char) :
      Grows g0 last g → Grows g0 last (g.add k l).1
  | linkN (g : Graph) (a b : Nat) :
      Grows g0 last g → (a = last ∨ g0.nodes.length ≤ a) →
      b < g.nodes.length → Grows g0 last (g.link a b)

/-! ## Basic lemmas about the graph operations -/

theorem length_add (g : Graph) (k : Kind) (l : List Char) :
    (g.add k l).1.nodes.length = g.nodes.length + 1 := by
  simp [Graph.add]

theorem title_add (g : Graph) (k : Kind) (l : List Char) :
    (g.add k l).1.title = g.title := rfl

theorem snd_add (g : Graph) (k : Kind) (l : List Char) :
    (g.add k l).2 = g.nodes.length := rfl

theorem nodeAt_add_lt (g : Graph) (k : Kind) (l : List Char) (i : Nat)
    (h : i < g.nodes.length) : nodeAt (g.add k l).1 i = nodeAt g i := by
  simp only [nodeAt, Graph.add, List.getD_eq_getElem?_getD]
  rw [List.getElem?_append_left h]

theorem nodeAt_add_self (g : Graph) (k : Kind) (l : List Char) :
    nodeAt (g.add k l).1 g.nodes.length = ⟨k, l, []⟩ := by
  simp [nodeAt, Graph.add, List.getD_eq_getElem?_getD]

theorem nodeAt_ge (g : Graph) (i : Nat) (h : g.nodes.length ≤ i) :
    nodeAt g i = ⟨.op, [], []⟩ := by
  simp [nodeAt, List.getD_eq_getElem?_getD, List.getElem?_eq_none h]

theorem nextsOf_add (g : Graph) (k : Kind) (l : List Char) (i : Nat) :
    nextsOf (g.add k l).1 i = nextsOf g i := by
  unfold nextsOf
  rcases Nat.lt_trichotomy i g.nodes.length with h | h | h
  · rw [nodeAt_add_lt g k l i h]
  · subst h
    rw [nodeAt_add_self, nodeAt_ge g _ le_rfl]
  · have h2 : (g.add k l).1.nodes.length ≤ i := by rw [length_add]; omega
    rw [nodeAt_ge _ i h2, nodeAt_ge g i (by omega)]

theorem edgeIn_add (g : Graph) (k : Kind) (l : List Char) (a b : Nat) :
    edgeIn (g.add k l).1 a b ↔ edgeIn g a b := by
  simp [edgeIn, nextsOf_add]

theorem getElem?_nodes (g : Graph) (a : Nat) (h : a < g.nodes.length) :
    g.nodes[a]? = some (nodeAt g a) := by
  simp [nodeAt, List.getD_eq_getElem?_getD, List.getElem?_eq_getElem h]

theorem nextsOf_of_ge (g : Graph) (a : Nat) (h : g.nodes.length ≤ a) :
    nextsOf g a = [] := by
  unfold nextsOf
  rw [nodeAt_ge g a h]

theorem link_eq_of_mem (g : Graph) (a b : Nat) (h : b ∈ nextsOf g a) :
    g.link a b = g := by
  unfold Graph.link
  rcases Nat.lt_or_ge a g.nodes.length with ha | ha
  · rw [getElem?_nodes g a ha]
    simp only [nextsOf] at h
    simp [h]
  · rw [List.getElem?_eq_none ha]

theorem link_eq_of_ge (g : Graph) (a b : Nat) (h : g.nodes.length ≤ a) :
    g.link a b = g := by
  unfold Graph.link
  rw [List.getElem?_eq_none h]

theorem link_nodes_set (g : Graph) (a b : Nat) (ha : a < g.nodes.length)
    (hb : b ∉ nextsOf g a) :
    (g.link a b).nodes =
      g.nodes.set a
        ⟨(nodeAt g a).kind, (nodeAt g a).label, (nodeAt g a).nexts ++ [b]⟩ := by
  unfold Graph.link
  rw [getElem?_nodes g a ha]
  simp only [nextsOf] at hb
  simp [hb]

theorem length_link (g : Graph) (a b : Nat) :
    (g.link a b).nodes.length = g.nodes.length := by
  rcases Nat.lt_or_ge a g.nodes.length with ha | ha
  · by_cases hb : b ∈ nextsOf g a
    · rw [link_eq_of_mem g a b hb]
    · rw [link_nodes_set g a b ha hb, List.length_set]
  · rw [link_eq_of_ge g a b ha]

theorem title_link (g : Graph) (a b : Nat) : (g.link a b).title = g.title := by
  rcases Nat.lt_or_ge a g.nodes.length with ha | ha
  · by_cases hb : b ∈ nextsOf g a
    · rw [link_eq_of_mem g a b hb]
    · unfold Graph.link
      rw [getElem?_nodes g a ha]
      simp only [nextsOf] at hb
      simp [hb]
  · rw [link_eq_of_ge g a b ha]

theorem nodeAt_link_other (g : Graph) (a b i : Nat) (h : i ≠ a) :
    nodeAt (g.link a b) i = nodeAt g i := by
  rcases Nat.lt_or_ge a g.nodes.length with ha | ha
  · by_cases hb : b ∈ nextsOf g a
    · rw [link_eq_of_mem g a b hb]
    · simp only [nodeAt, link_nodes_set g a b ha hb, List.getD_eq_getElem?_getD]
      rw [List.getElem?_set_ne (Ne.symm h)]
  · rw [link_eq_of_ge g a b ha]

theorem nextsOf_link_self (g : Graph) (a b : Nat) (ha : a < g.nodes.length) :
    nextsOf (g.link a b) a =
      if b ∈ nextsOf g a then nextsOf g a else nextsOf g a ++ [b] := by
  by_cases hb : b ∈ nextsOf g a
  · rw [link_eq_of_mem g a b hb, if_pos hb]
  · rw [if_neg hb]
    simp only [nextsOf, nodeAt, link_nodes_set g a b ha hb,
      List.getD_eq_getElem?_getD]
    rw [List.getElem?_set_eq_of_lt _ ha]
    rfl

theorem nextsOf_link_other (g : Graph) (a b i : Nat) (h : i ≠ a) :
    nextsOf (g.link a b) i = nextsOf g i := by
  unfold nextsOf
  rw [nodeAt_link_other g a b i h]

theorem kind_link (g : Graph) (a b i : Nat) :
    (nodeAt (g.link a b) i).kind = (nodeAt g i).kind := by
  by_cases h : i = a
  · subst h
    rcases Nat.lt_or_ge i g.nodes.length with hi | hi
    · by_cases hb : b ∈ nextsOf g i
      · rw [link_eq_of_mem g i b hb]
      · simp only [nodeAt, link_nodes_set g i b hi hb, List.getD_eq_getElem?_getD]
        rw [List.getElem?_set_eq_of_lt _ hi]
        rfl
    · rw [link_eq_of_ge g i b hi]
  · rw [nodeAt_link_other g a b i h]

theorem label_link (g : Graph) (a b i : Nat) :
    (nodeAt (g.link a b) i).label = (nodeAt g i).label := by
  by_cases h : i = a
  · subst h
    rcases Nat.lt_or_ge i g.nodes.length with hi | hi
    · by_cases hb : b ∈ nextsOf g i
      · rw [link_eq_of_mem g i b hb]
      · simp only [nodeAt, link_nodes_set g i b hi hb, List.getD_eq_getElem?_getD]
        rw [List.getElem?_set_eq_of_lt _ hi]
        rfl
    · rw [link_eq_of_ge g i b hi]
  · rw [nodeAt_link_other g a b i h]

theorem mem_nextsOf_link (g : Graph) (a b : Nat) (ha : a < g.nodes.length) :
    b ∈ nextsOf (g.link a b) a := by
  rw [nextsOf_link_self g a b ha]
  by_cases hb : b ∈ nextsOf g a <;> simp [hb]

theorem edgeIn_link_mono (g : Graph) (a b x y : Nat) (h : edgeIn g x y) :
    edgeIn (g.link a b) x y := by
  unfold edgeIn at *
  by_cases hx : x = a
  · subst hx
    rcases Nat.lt_or_ge x g.nodes.length with hlt | hge
    · rw [nextsOf_link_self g x b hlt]
      by_cases hb : b ∈ nextsOf g x <;> simp [hb, h, List.mem_append]
    · rw [nextsOf_of_ge g x hge] at h
      simp at h
  · rwa [nextsOf_link_other g a b x hx]

theorem edgeIn_link_elim (g : Graph) (a b x y : Nat)
    (h : edgeIn (g.link a b) x y) : edgeIn g x y ∨ (x = a ∧ y = b) := by
  unfold edgeIn at *
  by_cases hx : x = a
  · subst hx
    rcases Nat.lt_or_ge x g.nodes.length with hlt | hge
    · rw [nextsOf_link_self g x b hlt] at h
      by_cases hb : b ∈ nextsOf g x
      · simp only [hb, if_true] at h
        exact Or.inl h
      · simp only [hb, if_false, List.mem_append, List.mem_singleton] at h
        rcases h with h | h
        · exact Or.inl h
        · exact Or.inr ⟨rfl, h⟩
    · rw [link_eq_of_ge g x b hge] at h
      exact Or.inl h
  · rw [nextsOf_link_other g a b x hx] at h
    exact Or.inl h

/-! ## Lemmas about `linkAll` -/

theorem linkAll_nil (g : Graph) (t : Nat) : linkAll g [] t = g := rfl

theorem linkAll_cons (g : Graph) (x : Nat) (xs : List Nat) (t : Nat) :
    linkAll g (x :: xs) t = linkAll (g.link x t) xs t := rfl

theorem length_linkAll (xs : List Nat) :
    ∀ (g : Graph) (t : Nat), (linkAll g xs t).nodes.length = g.nodes.length := by
  induction xs with
  | nil => intro g t; rfl
  | cons x xs ih =>
    intro g t
    rw [linkAll_cons, ih, length_link]

theorem title_linkAll (xs : List Nat) :
    ∀ (g : Graph) (t : Nat), (linkAll g xs t).title = g.title := by
  induction xs with
  | nil => intro g t; rfl
  | cons x xs ih =>
    intro g t
    rw [linkAll_cons, ih, title_link]

theorem kind_linkAll (xs : List Nat) :
    ∀ (g : Graph) (t i : Nat),
      (nodeAt (linkAll g xs t) i).kind = (nodeAt g i).kind := by
  induction xs with
  | nil => intro g t i; rfl
  | cons x xs ih =>
    intro g t i
    rw [linkAll_cons, ih, kind_link]

theorem label_linkAll (xs : List Nat) :
    ∀ (g : Graph) (t i : Nat),
      (nodeAt (linkAll g xs t) i).label = (nodeAt g i).label := by
  induction xs with
  | nil => intro g t i; rfl
  | cons x xs ih =>
    intro g t i
    rw [linkAll_cons, ih, label_link]

theorem edgeIn_linkAll_mono (xs : List Nat) :
    ∀ (g : Graph) (t a b : Nat), edgeIn g a b → edgeIn (linkAll g xs t) a b := by
  induction xs with
  | nil => intro g t a b h; exact h
  | cons x xs ih =>
    intro g t a b h
    rw [linkAll_cons]
    exact ih _ t a b (edgeIn_link_mono g x t a b h)

theorem edgeIn_linkAll_elim (xs : List Nat) :
    ∀ (g : Graph) (t a b : Nat), edgeIn (linkAll g xs t) a b →
      edgeIn g a b ∨ (a ∈ xs ∧ b = t) := by
  induction xs with
  | nil => intro g t a b h; exact Or.inl h
  | cons x xs ih =>
    intro g t a b h
    rw [linkAll_cons] at h
    rcases ih _ t a b h with h2 | ⟨hm, hb⟩
    · rcases edgeIn_link_elim g x t a b h2 with h3 | ⟨ha, hb⟩
      · exact Or.inl h3
      · exact Or.inr ⟨by simp [ha], hb⟩
    · exact Or.inr ⟨by simp [hm], hb⟩

theorem edgeIn_linkAll_of_mem (xs : List Nat) :
    ∀ (g : Graph) (t e : Nat), e ∈ xs → e < g.nodes.length →
      edgeIn (linkAll g xs t) e t := by
  induction xs with
  | nil => intro g t e h; simp at h
  | cons x xs ih =>
    intro g t e hmem hlt
    rw [linkAll_cons]
    rcases List.mem_cons.1 hmem with he | he
    · subst he
      exact edgeIn_linkAll_mono xs _ t e t (mem_nextsOf_link g e t hlt)
    · exact ih _ t e he (by rw [length_link]; exact hlt)

/-! ## Lemmas about `Grows` -/

theorem Grows.title_eq {g0 : Graph} {last : Nat} {g : Graph}
    (h : Grows g0 last g) : g.title = g0.title := by
  induction h with
  | base => rfl
  | addN g k l _ ih => rw [title_add, ih]
  | linkN g a b _ _ _ ih => rw [title_link, ih]

theorem Grows.len_mono {g0 : Graph} {last : Nat} {g : Graph}
    (h : Grows g0 last g) : g0.nodes.length ≤ g.nodes.length := by
  induction h with
  | base => exact le_rfl
  | addN g k l _ ih => rw [length_add]; omega
  | linkN g a b _ _ _ ih => rw [length_link]; exact ih

theorem Grows.kind_eq {g0 : Graph} {last : Nat} {g : Graph}
    (h : Grows g0 last g) (i : Nat) (hi : i < g0.nodes.length) :
    (nodeAt g i).kind = (nodeAt g0 i).kind := by
  induction h with
  | base => rfl
  | addN g k l hg ih => rw [nodeAt_add_lt g k l i (lt_of_lt_of_le hi hg.len_mono), ih]
  | linkN g a b _ _ _ ih => rw [kind_link, ih]

theorem Grows.label_eq {g0 : Graph} {last : Nat} {g : Graph}
    (h : Grows g0 last g) (i : Nat) (hi : i < g0.nodes.length) :
    (nodeAt g i).label = (nodeAt g0 i).label := by
  induction h with
  | base => rfl
  | addN g k l hg ih => rw [nodeAt_add_lt g k l i (lt_of_lt_of_le hi hg.len_mono), ih]
  | linkN g a b _ _ _ ih => rw [label_link, ih]

theorem Grows.edge_mono {g0 : Graph} {last : Nat} {g : Graph}
    (h : Grows g0 last g) (a b : Nat) (he : edgeIn g0 a b) : edgeIn g a b := by
  induction h with
  | base => exact he
  | addN g k l _ ih => exact (edgeIn_add g k l a b).2 ih
  | linkN g x y _ _ _ ih => exact edgeIn_link_mono g x y a b ih

theorem Grows.edge_src {g0 : Graph} {last : Nat} {g : Graph}
    (h : Grows g0 last g) (a b : Nat) (he : edgeIn g a b) :
    edgeIn g0 a b ∨ a = last ∨ g0.nodes.length ≤ a := by
  induction h with
  | base => exact Or.inl he
  | addN g k l _ ih => exact ih ((edgeIn_add g k l a b).1 he)
  | linkN g x y _ hx _ ih =>
    rcases edgeIn_link_elim g x y a b he with h2 | ⟨ha, _⟩
    · exact ih h2
    · subst ha
      exact Or.inr hx

theorem Grows.tOk {g0 : Graph} {last : Nat} {g : Graph}
    (h : Grows g0 last g) (h0 : targetsOk g0) : targetsOk g := by
  induction h with
  | base => exact h0
  | addN g k l _ ih =>
    intro a b he
    rw [length_add]
    exact lt_of_lt_of_le (ih a b ((edgeIn_add g k l a b).1 he)) (by omega)
  | linkN g x y _ _ hy ih =>
    intro a b he
    rw [length_link]
    rcases edgeIn_link_elim g x y a b he with h2 | ⟨_, hb⟩
    · exact ih a b h2
    · subst hb
      exact hy

theorem Grows.trans {g0 : Graph} {last : Nat} {g1 g2 : Graph} {last2 : Nat}
    (h1 : Grows g0 last g1) (h2 : Grows g1 last2 g2)
    (hl : last2 = last ∨ g0.nodes.length ≤ last2) : Grows g0 last g2 := by
  induction h2 with
  | base => exact h1
  | addN g k l _ ih => exact Grows.addN g k l ih
  | linkN g a b hg ha hb ih =>
    refine Grows.linkN g a b ih ?_ hb
    rcases ha with ha | ha
    · subst ha
      exact hl
    · exact Or.inr (le_trans h1.len_mono ha)

theorem Grows.linkAllN {g0 : Graph} {last : Nat} {g : Graph}
    (h : Grows g0 last g) (xs : List Nat) (t : Nat)
    (hx : ∀ x ∈ xs, x = last ∨ g0.nodes.length ≤ x)
    (ht : t < g.nodes.length) : Grows g0 last (linkAll g xs t) := by
  induction xs generalizing g with
  | nil => exact h
  | cons x xs ih =>
    rw [linkAll_cons]
    refine ih (Grows.linkN g x t h (hx x (by simp)) ht) ?_ ?_
    · intro y hy
      exact hx y (by simp [hy])
    · rw [length_link]
      exact ht

/-! ## Lemmas about `closedE` and `targetsOk` -/

theorem closedE_weaken {g : Graph} {S T : List Nat}
    (hst : ∀ x, x ∈ S → x ∈ T) (h : closedE g S) : closedE g T := by
  intro i hi h1 hT
  exact h i hi h1 (fun hS => hT (hst i hS))

theorem closedE_add {g : Graph} {S : List Nat} (k : Kind) (l : List Char)
    (h : closedE g S) : closedE (g.add k l).1 ((g.add k l).2 :: S) := by
  intro i hi h1 hS
  rw [nextsOf_add]
  rw [length_add] at hi
  rcases Nat.lt_or_ge i g.nodes.length with h2 | h2
  · exact h i h2 h1 (fun hm => hS (by simp [hm]))
  · exfalso
    have : i = g.nodes.length := by omega
    exact hS (by simp [this, snd_add])

theorem closedE_link {g : Graph} {S : List Nat} (a b : Nat)
    (h : closedE g S) : closedE (g.link a b) S := by
  intro i hi h1 hS
  rw [length_link] at hi
  by_cases hia : i = a
  · subst hia
    rw [nextsOf_link_self g i b hi]
    by_cases hb : b ∈ nextsOf g i
    · rw [if_pos hb]
      exact h i hi h1 hS
    · rw [if_neg hb]
      simp
  · rw [nextsOf_link_other g a b i hia]
    exact h i hi h1 hS

theorem closedE_link_close {g : Graph} {S : List Nat} (a b : Nat)
    (ha : a < g.nodes.length) (h : closedE g (a :: S)) :
    closedE (g.link a b) S := by
  intro i hi h1 hS
  rw [length_link] at hi
  by_cases hia : i = a
  · subst hia
    rw [nextsOf_link_self g i b hi]
    by_cases hb : b ∈ nextsOf g i
    · rw [if_pos hb]
      intro hnil
      rw [hnil] at hb
      simp at hb
    · rw [if_neg hb]
      simp
  · rw [nextsOf_link_other g a b i hia]
    exact h i hi h1 (by simp [hia, hS])

theorem closedE_linkAll {xs : List Nat} :
    ∀ {g : Graph} {S : List Nat} (t : Nat), closedE g S →
      closedE (linkAll g xs t) S := by
  induction xs with
  | nil => intro g S t h; exact h
  | cons x xs ih =>
    intro g S t h
    rw [linkAll_cons]
    exact ih t (closedE_link x t h)

theorem closedE_linkAll_close {xs : List Nat} :
    ∀ {g : Graph} {S : List Nat} (t : Nat),
      (∀ x ∈ xs, x < g.nodes.length) → closedE g (xs ++ S) →
      closedE (linkAll g xs t) S := by
  induction xs with
  | nil => intro g S t _ h; exact h
  | cons x xs ih =>
    intro g S t hx h
    rw [linkAll_cons]
    refine ih t ?_ ?_
    · intro y hy
      rw [length_link]
      exact hx y (by simp [hy])
    · exact closedE_link_close x t (hx x (by simp)) h

theorem closedE_mkGraph (title : List Char) (S : List Nat) :
    closedE (mkGraph title) (0 :: S) := by
  intro i hi h1 hS
  exfalso
  have hlen : (mkGraph title).nodes.length = 2 := rfl
  rw [hlen] at hi
  rcases i with _ | _ | n
  · exact hS (by simp)
  · exact h1 rfl
  · omega

theorem targetsOk_mkGraph (title : List Char) : targetsOk (mkGraph title) := by
  intro a b he
  exfalso
  have : nextsOf (mkGraph title) a = [] := by
    rcases a with _ | _ | n <;> rfl
  unfold edgeIn at he
  rw [this] at he
  simp at he

/-! ## The builder grows the graph -/

theorem grows_addLink (g : Graph) (last : Nat) (k : Kind) (l : List Char) :
    Grows g last ((g.add k l).1.link last (g.add k l).2) :=
  Grows.linkN _ last _ (Grows.addN g k l Grows.base) (Or.inl rfl)
    (by rw [snd_add, length_add]; omega)

theorem length_addLink (g : Graph) (last : Nat) (k : Kind) (l : List Char) :
    ((g.add k l).1.link last (g.add k l).2).nodes.length = g.nodes.length + 1 := by
  rw [length_link, length_add]

theorem grows_addLink_pair (g : Graph) (last : Nat) (k : Kind) (l : List Char) :
    Grows g last ((g.add k l).1.link last (g.add k l).2) ∧
    g.nodes.length ≤ (g.add k l).2 ∧
    (g.add k l).2 < ((g.add k l).1.link last (g.add k l).2).nodes.length := by
  refine ⟨grows_addLink g last k l, by rw [snd_add], ?_⟩
  simp only [snd_add, length_link, length_add]
  omega

theorem grows_addLink_end (g : Graph) (last : Nat) (k : Kind) (l : List Char)
    (hlen : 2 ≤ g.nodes.length) :
    Grows g last (((g.add k l).1.link last (g.add k l).2).link (g.add k l).2 1) ∧
    g.nodes.length ≤ (g.add k l).2 ∧
    (g.add k l).2 <
      (((g.add k l).1.link last (g.add k l).2).link (g.add k l).2 1).nodes.length := by
  refine ⟨Grows.linkN _ _ 1 (grows_addLink g last k l)
      (Or.inr (by rw [snd_add])) (by rw [length_addLink]; omega),
    by rw [snd_add], ?_⟩
  simp only [snd_add, length_link, length_add]
  omega

mutual

theorem buildStmt_grows (g : Graph) (last : Nat) (hlen : 2 ≤ g.nodes.length) :
    (s : Stmt) → Grows g last (buildStmt g last s).1 ∧
      g.nodes.length ≤ (buildStmt g last s).2 ∧
      (buildStmt g last s).2 < (buildStmt g last s).1.nodes.length
  | .ifS test body orelse => by
    by_cases ho : orelse.isEmpty = true
    · simp only [buildStmt, if_pos ho]
      obtain ⟨hbg, hbt, hblt⟩ := buildBlock_grows
        ((g.add .cond (chars "if " ++ test)).1.link last (g.add .cond (chars "if " ++ test)).2)
        (g.add .cond (chars "if " ++ test)).2
        (by rw [length_addLink]; omega) body
      set C := (g.add .cond (chars "if " ++ test)).2 with hC
      set G2 := (g.add .cond (chars "if " ++ test)).1.link last C with hG2
      set p3 := buildBlock G2 C body with hp3
      have hC2 : C = g.nodes.length := by rw [hC, snd_add]
      have hG2len : G2.nodes.length = g.nodes.length + 1 := by
        rw [hG2, length_addLink]
      have h2 : Grows g last p3.1 :=
        (grows_addLink g last .cond (chars "if " ++ test)).trans hbg (Or.inr (by omega))
      have hp3len : g.nodes.length + 1 ≤ p3.1.nodes.length := by
        rw [← hG2len]; exact hbg.len_mono
      have htail : C = p3.2 ∨ g.nodes.length ≤ p3.2 := by
        rcases hbt with h | h
        · exact Or.inl h.symm
        · exact Or.inr (by omega)
      refine ⟨?_, ?_, ?_⟩
      · refine Grows.linkN _ C _ (Grows.linkN _ p3.2 _ (Grows.addN _ .op _ h2) ?_ ?_) ?_ ?_
        · rcases htail with h | h
          · exact Or.inr (by omega)
          · exact Or.inr h
        · simp only [snd_add, length_link, length_add]; omega
        · exact Or.inr (by omega)
        · simp only [snd_add, length_link, length_add]; omega
      · simp only [snd_add, length_link, length_add]; omega
      · simp only [snd_add, length_link, length_add]; omega
    · simp only [buildStmt, if_neg ho]
      obtain ⟨hbg, hbt, hblt⟩ := buildBlock_grows
        ((g.add .cond (chars "if " ++ test)).1.link last (g.add .cond (chars "if " ++ test)).2)
        (g.add .cond (chars "if " ++ test)).2
        (by rw [length_addLink]; omega) body
      set C := (g.add .cond (chars "if " ++ test)).2 with hC
      set G2 := (g.add .cond (chars "if " ++ test)).1.link last C with hG2
      set p3 := buildBlock G2 C body with hp3
      have hC2 : C = g.nodes.length := by rw [hC, snd_add]
      have hG2len : G2.nodes.length = g.nodes.length + 1 := by
        rw [hG2, length_addLink]
      have h2 : Grows g last p3.1 :=
        (grows_addLink g last .cond (chars "if " ++ test)).trans hbg (Or.inr (by omega))
      have hp3len : g.nodes.length + 1 ≤ p3.1.nodes.length := by
        rw [← hG2len]; exact hbg.len_mono
      obtain ⟨heg, het, helt⟩ := buildBlock_grows p3.1 C (by omega) orelse
      set p4 := buildBlock p3.1 C orelse with hp4
      have h3 : Grows g last p4.1 := h2.trans heg (Or.inr (by omega))
      have hp4len : p3.1.nodes.length ≤ p4.1.nodes.length := heg.len_mono
      refine ⟨?_, ?_, ?_⟩
      · refine Grows.linkN _ p4.2 _ (Grows.linkN _ p3.2 _ (Grows.addN _ .op _ h3) ?_ ?_) ?_ ?_
        · rcases hbt with h | h
          · exact Or.inr (by omega)
          · exact Or.inr (by omega)
        · simp only [snd_add, length_link, length_add]; omega
        · rcases het with h | h
          · exact Or.inr (by omega)
          · exact Or.inr (by omega)
        · simp only [snd_add, length_link, length_add]; omega
      · simp only [snd_add, length_link, length_add]; omega
      · simp only [snd_add, length_link, length_add]; omega
  | .forS target iter body => by
    simp only [buildStmt]
    obtain ⟨hbg, hbt, hblt⟩ := buildBlock_grows
      ((g.add .cond (chars "for " ++ target ++ chars " in " ++ iter)).1.link last
        (g.add .cond (chars "for " ++ target ++ chars " in " ++ iter)).2)
      (g.add .cond (chars "for " ++ target ++ chars " in " ++ iter)).2
      (by rw [length_addLink]; omega) body
    set C := (g.add .cond (chars "for " ++ target ++ chars " in " ++ iter)).2 with hC
    set G2 := (g.add .cond (chars "for " ++ target ++ chars " in " ++ iter)).1.link last C
      with hG2
    set p3 := buildBlock G2 C body with hp3
    have hC2 : C = g.nodes.length := by rw [hC, snd_add]
    have hG2len : G2.nodes.length = g.nodes.length + 1 := by rw [hG2, length_addLink]
    have h2 : Grows g last p3.1 :=
      (grows_addLink g last .cond _).trans hbg (Or.inr (by omega))
    have hp3len : g.nodes.length + 1 ≤ p3.1.nodes.length := by
      rw [← hG2len]; exact hbg.len_mono
    have h3 : Grows g last (p3.1.link p3.2 C) := by
      refine Grows.linkN _ p3.2 C h2 ?_ (by omega)
      rcases hbt with h | h
      · exact Or.inr (by omega)
      · exact Or.inr (by omega)
    refine ⟨?_, ?_, ?_⟩
    · refine Grows.linkN _ C _ (Grows.addN _ .op _ h3) (Or.inr (by omega)) ?_
      simp only [snd_add, length_link, length_add]; omega
    · simp only [snd_add, length_link, length_add]; omega
    · simp only [snd_add, length_link, length_add]; omega
  | .whileS test body => by
    simp only [buildStmt]
    obtain ⟨hbg, hbt, hblt⟩ := buildBlock_grows
      ((g.add .cond (chars "while " ++ test)).1.link last
        (g.add .cond (chars "while " ++ test)).2)
      (g.add .cond (chars "while " ++ test)).2
      (by rw [length_addLink]; omega) body
    set C := (g.add .cond (chars "while " ++ test)).2 with hC
    set G2 := (g.add .cond (chars "while " ++ test)).1.link last C with hG2
    set p3 := buildBlock G2 C body with hp3
    have hC2 : C = g.nodes.length := by rw [hC, snd_add]
    have hG2len : G2.nodes.length = g.nodes.length + 1 := by rw [hG2, length_addLink]
    have h2 : Grows g last p3.1 :=
      (grows_addLink g last .cond _).trans hbg (Or.inr (by omega))
    have hp3len : g.nodes.length + 1 ≤ p3.1.nodes.length := by
      rw [← hG2len]; exact hbg.len_mono
    have h3 : Grows g last (p3.1.link p3.2 C) := by
      refine Grows.linkN _ p3.2 C h2 ?_ (by omega)
      rcases hbt with h | h
      · exact Or.inr (by omega)
      · exact Or.inr (by omega)
    refine ⟨?_, ?_, ?_⟩
    · refine Grows.linkN _ C _ (Grows.addN _ .op _ h3) (Or.inr (by omega)) ?_
      simp only [snd_add, length_link, length_add]; omega
    · simp only [snd_add, length_link, length_add]; omega
    · simp only [snd_add, length_link, length_add]; omega
  | .withS items body => by
    simp only [buildStmt]
    obtain ⟨hbg, hbt, hblt⟩ := buildBlock_grows
      ((g.add .op (chars "with " ++ joinSep (chars "; ") items)).1.link last
        (g.add .op (chars "with " ++ joinSep (chars "; ") items)).2)
      (g.add .op (chars "with " ++ joinSep (chars "; ") items)).2
      (by rw [length_addLink]; omega) body
    set C := (g.add .op (chars "with " ++ joinSep (chars "; ") items)).2 with hC
    set G2 := (g.add .op (chars "with " ++ joinSep (chars "; ") items)).1.link last C
      with hG2
    have hC2 : C = g.nodes.length := by rw [hC, snd_add]
    have hG2len : G2.nodes.length = g.nodes.length + 1 := by rw [hG2, length_addLink]
    refine ⟨(grows_addLink g last .op _).trans hbg (Or.inr (by omega)), ?_, ?_⟩
    · rcases hbt with h | h
      · omega
      · omega
    · rcases hbt with h | h
      · rw [h]
        have := hbg.len_mono
        omega
      · rcases hblt with h2 | h2
        · omega
        · exact h2
  | .tryS body handlers orelse finalbody => by
    obtain ⟨hbg, hbt, hblt⟩ := buildBlock_grows
      ((g.add .op (chars "try")).1.link last (g.add .op (chars "try")).2)
      (g.add .op (chars "try")).2
      (by rw [length_addLink]; omega) body
    have hC2 : (g.add .op (chars "try")).2 = g.nodes.length := by rw [snd_add]
    have hG2len : ((g.add .op (chars "try")).1.link last
        (g.add .op (chars "try")).2).nodes.length = g.nodes.length + 1 := by
      rw [length_addLink]
    set C := (g.add .op (chars "try")).2 with hC
    set G2 := (g.add .op (chars "try")).1.link last C with hG2
    set p3 := buildBlock G2 C body with hp3
    have h2 : Grows g last p3.1 :=
      (grows_addLink g last .op _).trans hbg (Or.inr (by omega))
    have hp3len : g.nodes.length + 1 ≤ p3.1.nodes.length := by
      rw [← hG2len]; exact hbg.len_mono
    obtain ⟨hhg, hhts⟩ := buildHandlers_grows p3.1 C (by omega) handlers
    set p4 := buildHandlers p3.1 C handlers with hp4
    have h3 : Grows g last p4.1 := h2.trans hhg (Or.inr (by omega))
    have hp4len : p3.1.nodes.length ≤ p4.1.nodes.length := hhg.len_mono
    have htt : g.nodes.length ≤ p3.2 ∧ p3.2 < p4.1.nodes.length := by
      rcases hbt with h | h
      · constructor
        · omega
        · rcases hblt with h2 | h2
          · omega
          · omega
      · constructor
        · omega
        · rcases hblt with h2 | h2
          · omega
          · omega
    -- the exits list after the optional else clause
    have hexits : Grows g last (if orelse.isEmpty then (p4.1, p3.2 :: p4.2)
          else
            let q1 := p4.1.add .op (chars "else")
            let q2 := q1.1.link p3.2 q1.2
            let q3 := buildBlock q2 q1.2 orelse
            (q3.1, q3.2 :: p4.2)).1 ∧
        g.nodes.length ≤ (if orelse.isEmpty then (p4.1, p3.2 :: p4.2)
          else
            let q1 := p4.1.add .op (chars "else")
            let q2 := q1.1.link p3.2 q1.2
            let q3 := buildBlock q2 q1.2 orelse
            (q3.1, q3.2 :: p4.2)).1.nodes.length ∧
        ∀ x ∈ (if orelse.isEmpty then (p4.1, p3.2 :: p4.2)
          else
            let q1 := p4.1.add .op (chars "else")
            let q2 := q1.1.link p3.2 q1.2
            let q3 := buildBlock q2 q1.2 orelse
            (q3.1, q3.2 :: p4.2)).2,
          g.nodes.length ≤ x ∧
            x < (if orelse.isEmpty then (p4.1, p3.2 :: p4.2)
              else
                let q1 := p4.1.add .op (chars "else")
                let q2 := q1.1.link p3.2 q1.2
                let q3 := buildBlock q2 q1.2 orelse
                (q3.1, q3.2 :: p4.2)).1.nodes.length := by
      by_cases ho : orelse.isEmpty = true
      · rw [if_pos ho]
        dsimp only
        refine ⟨h3, by have := h3.len_mono; omega, ?_⟩
        intro x hx
        rcases List.mem_cons.1 hx with hx | hx
        · subst hx
          exact htt
        · obtain ⟨hx1, hx2⟩ := hhts x hx
          exact ⟨by omega, hx2⟩
      · rw [if_neg ho]
        dsimp only
        obtain ⟨heg, het, helt⟩ := buildBlock_grows
          ((p4.1.add .op (chars "else")).1.link p3.2 (p4.1.add .op (chars "else")).2)
          (p4.1.add .op (chars "else")).2
          (by rw [length_addLink]; have := h3.len_mono; omega) orelse
        set E := (p4.1.add .op (chars "else")).2 with hE
        set Q2 := (p4.1.add .op (chars "else")).1.link p3.2 E with hQ2
        set q3 := buildBlock Q2 E orelse with hq3
        have hE2 : E = p4.1.nodes.length := by rw [hE, snd_add]
        have hQ2len : Q2.nodes.length = p4.1.nodes.length + 1 := by
          rw [hQ2, length_addLink]
        have h4 : Grows g last q3.1 := by
          refine (Grows.linkN _ p3.2 E (Grows.addN _ .op _ h3) (Or.inr (by omega))
            (by rw [hE2, length_add]; omega)).trans heg (Or.inr (by omega))
        have hq3len : p4.1.nodes.length + 1 ≤ q3.1.nodes.length := by
          rw [← hQ2len]; exact heg.len_mono
        refine ⟨h4, by have := h4.len_mono; omega, ?_⟩
        intro x hx
        rcases List.mem_cons.1 hx with hx | hx
        · subst hx
          rcases het with h | h
          · refine ⟨by omega, ?_⟩
            rcases helt with h2 | h2
            · omega
            · omega
          · refine ⟨by omega, ?_⟩
            rcases helt with h2 | h2
            · omega
            · omega
        · obtain ⟨hx1, hx2⟩ := hhts x hx
          exact ⟨by omega, by omega⟩
    set p5 := (if orelse.isEmpty then (p4.1, p3.2 :: p4.2)
      else
        let q1 := p4.1.add .op (chars "else")
        let q2 := q1.1.link p3.2 q1.2
        let q3 := buildBlock q2 q1.2 orelse
        (q3.1, q3.2 :: p4.2)) with hp5
    obtain ⟨hp5g, hp5len, hp5x⟩ := hexits
    by_cases hf : finalbody.isEmpty = true
    · simp only [buildStmt, if_pos hf, ← hp3, ← hp4, ← hp5, ← hC, ← hG2]
      refine ⟨?_, ?_, ?_⟩
      · refine (Grows.addN _ .op _ hp5g).linkAllN p5.2 _ ?_ ?_
        · intro x hx
          exact Or.inr (hp5x x hx).1
        · simp only [snd_add, length_link, length_add]; omega
      · simp only [snd_add, length_link, length_add]; omega
      · simp only [snd_add, length_linkAll, length_link, length_add]; omega
    · simp only [buildStmt, if_neg hf, ← hp3, ← hp4, ← hp5, ← hC, ← hG2]
      obtain ⟨hfg, hft, hflt⟩ := buildBlock_grows
        (linkAll (p5.1.add .op (chars "finally")).1 p5.2 (p5.1.add .op (chars "finally")).2)
        (p5.1.add .op (chars "finally")).2
        (by rw [length_linkAll, length_add]; omega) finalbody
      set F := (p5.1.add .op (chars "finally")).2 with hF
      set G7 := linkAll (p5.1.add .op (chars "finally")).1 p5.2 F with hG7
      have hF2 : F = p5.1.nodes.length := by rw [hF, snd_add]
      have hG7len : G7.nodes.length = p5.1.nodes.length + 1 := by
        rw [hG7, length_linkAll, length_add]
      have h6 : Grows g last G7 := by
        refine (Grows.addN _ .op _ hp5g).linkAllN p5.2 F ?_ ?_
        · intro x hx
          exact Or.inr (hp5x x hx).1
        · rw [hF2, length_add]; omega
      have h7 : Grows g last (buildBlock G7 F finalbody).1 :=
        h6.trans hfg (Or.inr (by omega))
      refine ⟨h7, ?_, ?_⟩
      · rcases hft with h | h
        · omega
        · omega
      · rcases hft with h | h
        · rw [h]
          have := hfg.len_mono
          omega
        · rcases hflt with h2 | h2
          · omega
          · exact h2
  | .funcDef name params body => by
    simp only [buildStmt]
    exact grows_addLink_pair g last .op _
  | .classDef name => by
    simp only [buildStmt]
    exact grows_addLink_pair g last .op _
  | .ret value => by
    simp only [buildStmt]
    exact grows_addLink_end g last .op _ hlen
  | .raiseS exc => by
    simp only [buildStmt]
    exact grows_addLink_end g last .op _ hlen
  | .brk => by
    simp only [buildStmt]
    exact grows_addLink_pair g last .op _
  | .cont => by
    simp only [buildStmt]
    exact grows_addLink_pair g last .op _
  | .matchS subject cases => by
    simp only [buildStmt]
    obtain ⟨hcg, hcts⟩ := buildCases_grows
      ((g.add .op (chars "match " ++ subject)).1.link last
        (g.add .op (chars "match " ++ subject)).2)
      (g.add .op (chars "match " ++ subject)).2
      (by rw [length_addLink]; omega) cases
    set H := (g.add .op (chars "match " ++ subject)).2 with hH
    set G2 := (g.add .op (chars "match " ++ subject)).1.link last H with hG2
    set p3 := buildCases G2 H cases with hp3
    have hH2 : H = g.nodes.length := by rw [hH, snd_add]
    have hG2len : G2.nodes.length = g.nodes.length + 1 := by rw [hG2, length_addLink]
    have h2 : Grows g last p3.1 :=
      (grows_addLink g last .op _).trans hcg (Or.inr (by omega))
    have hp3len : g.nodes.length + 1 ≤ p3.1.nodes.length := by
      rw [← hG2len]; exact hcg.len_mono
    refine ⟨?_, ?_, ?_⟩
    · refine (Grows.addN _ .op _ h2).linkAllN p3.2 _ ?_ ?_
      · intro x hx
        obtain ⟨hx1, _⟩ := hcts x hx
        exact Or.inr (by omega)
      · simp only [snd_add, length_link, length_add]; omega
    · rw [snd_add]; omega
    · simp only [snd_add, length_linkAll, length_link, length_add]; omega
  | .simple txt => by
    simp only [buildStmt]
    exact grows_addLink_pair g last .op txt

theorem buildBlock_grows (g : Graph) (last : Nat) (hlen : 2 ≤ g.nodes.length) :
    (l : List Stmt) → Grows g last (buildBlock g last l).1 ∧
      ((buildBlock g last l).2 = last ∨ g.nodes.length ≤ (buildBlock g last l).2) ∧
      ((buildBlock g last l).2 = last ∨
        (buildBlock g last l).2 < (buildBlock g last l).1.nodes.length)
  | [] => by
    simp only [buildBlock]
    exact ⟨Grows.base, Or.inl trivial, Or.inl trivial⟩
  | s :: rest => by
    simp only [buildBlock]
    obtain ⟨hsg, hst, hslt⟩ := buildStmt_grows g last hlen s
    obtain ⟨hrg, hrt, hrlt⟩ := buildBlock_grows (buildStmt g last s).1
      (buildStmt g last s).2 (by have := hsg.len_mono; omega) rest
    have hcomp : Grows g last (buildBlock (buildStmt g last s).1 (buildStmt g last s).2
        rest).1 := hsg.trans hrg (Or.inr hst)
    refine ⟨hcomp, ?_, ?_⟩
    · rcases hrt with h | h
      · rw [h]
        exact Or.inr hst
      · exact Or.inr (by have := hsg.len_mono; omega)
    · rcases hrt with h | h
      · rw [h]
        right
        have := hrg.len_mono
        omega
      · rcases hrlt with h2 | h2
        · rw [h2]
          right
          have := hrg.len_mono
          omega
        · exact Or.inr h2

theorem buildHandlers_grows (g : Graph) (hdr : Nat) (hlen : 2 ≤ g.nodes.length) :
    (hs : List (List Char × List Stmt)) →
      Grows g hdr (buildHandlers g hdr hs).1 ∧
      ∀ x ∈ (buildHandlers g hdr hs).2,
        g.nodes.length ≤ x ∧ x < (buildHandlers g hdr hs).1.nodes.length
  | [] => by
    simp only [buildHandlers]
    exact ⟨Grows.base, by intro x hx; simp at hx⟩
  | (typ, hbody) :: rest => by
    simp only [buildHandlers]
    obtain ⟨hbg, hbt, hblt⟩ := buildBlock_grows
      ((g.add .op (exceptLabel typ)).1.link hdr (g.add .op (exceptLabel typ)).2)
      (g.add .op (exceptLabel typ)).2
      (by rw [length_addLink]; omega) hbody
    set N := (g.add .op (exceptLabel typ)).2 with hN
    set G2 := (g.add .op (exceptLabel typ)).1.link hdr N with hG2
    set p3 := buildBlock G2 N hbody with hp3
    have hN2 : N = g.nodes.length := by rw [hN, snd_add]
    have hG2len : G2.nodes.length = g.nodes.length + 1 := by rw [hG2, length_addLink]
    have h2 : Grows g hdr p3.1 :=
      (grows_addLink g hdr .op _).trans hbg (Or.inr (by omega))
    have hp3len : g.nodes.length + 1 ≤ p3.1.nodes.length := by
      rw [← hG2len]; exact hbg.len_mono
    obtain ⟨hrg, hrx⟩ := buildHandlers_grows p3.1 hdr (by omega) rest
    set p4 := buildHandlers p3.1 hdr rest with hp4
    have h3 : Grows g hdr p4.1 := h2.trans hrg (Or.inl rfl)
    have hp4len : p3.1.nodes.length ≤ p4.1.nodes.length := hrg.len_mono
    refine ⟨h3, ?_⟩
    intro x hx
    rcases List.mem_cons.1 hx with hx | hx
    · subst hx
      rcases hbt with h | h
      · constructor
        · omega
        · rcases hblt with h2 | h2
          · omega
          · omega
      · constructor
        · omega
        · rcases hblt with h2 | h2
          · omega
          · omega
    · obtain ⟨hx1, hx2⟩ := hrx x hx
      exact ⟨by omega, hx2⟩

theorem buildCases_grows (g : Graph) (hd : Nat) (hlen : 2 ≤ g.nodes.length) :
    (cs : List (List Char × List Stmt)) →
      Grows g hd (buildCases g hd cs).1 ∧
      ∀ x ∈ (buildCases g hd cs).2,
        g.nodes.length ≤ x ∧ x < (buildCases g hd cs).1.nodes.length
  | [] => by
    simp only [buildCases]
    exact ⟨Grows.base, by intro x hx; simp at hx⟩
  | (pat, cbody) :: rest => by
    simp only [buildCases]
    obtain ⟨hbg, hbt, hblt⟩ := buildBlock_grows
      ((g.add .op (chars "case " ++ pat)).1.link hd (g.add .op (chars "case " ++ pat)).2)
      (g.add .op (chars "case " ++ pat)).2
      (by rw [length_addLink]; omega) cbody
    set N := (g.add .op (chars "case " ++ pat)).2 with hN
    set G2 := (g.add .op (chars "case " ++ pat)).1.link hd N with hG2
    set p3 := buildBlock G2 N cbody with hp3
    have hN2 : N = g.nodes.length := by rw [hN, snd_add]
    have hG2len : G2.nodes.length = g.nodes.length + 1 := by rw [hG2, length_addLink]
    have h2 : Grows g hd p3.1 :=
      (grows_addLink g hd .op _).trans hbg (Or.inr (by omega))
    have hp3len : g.nodes.length + 1 ≤ p3.1.nodes.length := by
      rw [← hG2len]; exact hbg.len_mono
    obtain ⟨hrg, hrx⟩ := buildCases_grows p3.1 hd (by omega) rest
    set p4 := buildCases p3.1 hd rest with hp4
    have h3 : Grows g hd p4.1 := h2.trans hrg (Or.inl rfl)
    have hp4len : p3.1.nodes.length ≤ p4.1.nodes.length := hrg.len_mono
    refine ⟨h3, ?_⟩
    intro x hx
    rcases List.mem_cons.1 hx with hx | hx
    · subst hx
      rcases hbt with h | h
      · constructor
        · omega
        · rcases hblt with h2 | h2
          · omega
          · omega
      · constructor
        · omega
        · rcases hblt with h2 | h2
          · omega
          · omega
    · obtain ⟨hx1, hx2⟩ := hrx x hx
      exact ⟨by omega, hx2⟩

end

/-! ## Structural closure: every synthesized node gets an outgoing edge -/

theorem closedE_addLink {g : Graph} {S : List Nat} (last : Nat) (k : Kind)
    (l : List Char) (hlast : last < g.nodes.length) (h : closedE g (last :: S)) :
    closedE ((g.add k l).1.link last (g.add k l).2) ((g.add k l).2 :: S) := by
  refine closedE_link_close last _ (by rw [length_add]; omega) ?_
  refine closedE_weaken ?_ (closedE_add k l h)
  intro x hx
  simp only [List.mem_cons] at hx ⊢
  itauto

mutual

theorem buildStmt_closed (g : Graph) (last : Nat) (hlen : 2 ≤ g.nodes.length)
    (hlast : last < g.nodes.length) :
    (s : Stmt) → wfS s = true → ∀ S : List Nat, closedE g (last :: S) →
      closedE (buildStmt g last s).1 ((buildStmt g last s).2 :: S)
  | .ifS test body orelse => by
    intro hwf S h
    have hwfb : wfBlock body = true ∧ wfBlock orelse = true := by
      simpa [wfS, Bool.and_eq_true] using hwf
    obtain ⟨hbg, hbt, hblt⟩ := buildBlock_grows
      ((g.add .cond (chars "if " ++ test)).1.link last (g.add .cond (chars "if " ++ test)).2)
      (g.add .cond (chars "if " ++ test)).2
      (by rw [length_addLink]; omega) body
    set C := (g.add .cond (chars "if " ++ test)).2 with hC
    set G2 := (g.add .cond (chars "if " ++ test)).1.link last C with hG2
    set p3 := buildBlock G2 C body with hp3
    have hC2 : C = g.nodes.length := by rw [hC, snd_add]
    have hG2len : G2.nodes.length = g.nodes.length + 1 := by
      rw [hG2, length_link, length_add]
    have h1 : closedE G2 (C :: S) := by
      rw [hG2, hC]
      exact closedE_addLink last .cond _ hlast h
    have h2 : closedE p3.1 (p3.2 :: S) := by
      rw [hp3]
      exact buildBlock_closed G2 C (by omega) (by omega) body hwfb.1 S h1
    have hp3len : g.nodes.length + 1 ≤ p3.1.nodes.length := by
      rw [← hG2len]; exact hbg.len_mono
    have httlt : p3.2 < p3.1.nodes.length := by
      rcases hblt with hh | hh
      · omega
      · exact hh
    by_cases ho : orelse.isEmpty = true
    · simp only [buildStmt, if_pos ho]
      rw [← hC, ← hG2, ← hp3]
      refine closedE_link _ _ ?_
      refine closedE_link_close p3.2 _ (by rw [length_add]; omega) ?_
      refine closedE_weaken ?_ (closedE_add .op (chars "merge") h2)
      intro x hx
      simp only [List.mem_cons] at hx ⊢
      itauto
    · simp only [buildStmt, if_neg ho]
      rw [← hC, ← hG2, ← hp3]
      obtain ⟨heg, het, helt⟩ := buildBlock_grows p3.1 C (by omega) orelse
      set p4 := buildBlock p3.1 C orelse with hp4
      have h3 : closedE p4.1 (p4.2 :: p3.2 :: S) := by
        rw [hp4]
        refine buildBlock_closed p3.1 C (by omega) (by omega) orelse hwfb.2
          (p3.2 :: S) ?_
        refine closedE_weaken ?_ h2
        intro x hx
        simp only [List.mem_cons] at hx ⊢
        itauto
      have hftlt : p4.2 < p4.1.nodes.length := by
        rcases helt with hh | hh
        · have := heg.len_mono
          omega
        · exact hh
      have hp4len : p3.1.nodes.length ≤ p4.1.nodes.length := heg.len_mono
      have hA : closedE (p4.1.add .op (chars "merge")).1
          (p3.2 :: (p4.1.add .op (chars "merge")).2 :: p4.2 :: S) := by
        refine closedE_weaken ?_ (closedE_add .op (chars "merge") h3)
        intro x hx
        simp only [List.mem_cons] at hx ⊢
        itauto
      have hB : closedE ((p4.1.add .op (chars "merge")).1.link p3.2
          (p4.1.add .op (chars "merge")).2)
          (p4.2 :: (p4.1.add .op (chars "merge")).2 :: S) := by
        refine closedE_weaken ?_
          (closedE_link_close p3.2 _ (by rw [length_add]; omega) hA)
        intro x hx
        simp only [List.mem_cons] at hx ⊢
        itauto
      exact closedE_link_close p4.2 _ (by rw [length_link, length_add]; omega) hB
  | .forS target iter body => by
    intro hwf S h
    have hwfb : wfBlock body = true := by simpa [wfS] using hwf
    obtain ⟨hbg, hbt, hblt⟩ := buildBlock_grows
      ((g.add .cond (chars "for " ++ target ++ chars " in " ++ iter)).1.link last
        (g.add .cond (chars "for " ++ target ++ chars " in " ++ iter)).2)
      (g.add .cond (chars "for " ++ target ++ chars " in " ++ iter)).2
      (by rw [length_addLink]; omega) body
    simp only [buildStmt]
    set C := (g.add .cond (chars "for " ++ target ++ chars " in " ++ iter)).2 with hC
    set G2 := (g.add .cond (chars "for " ++ target ++ chars " in " ++ iter)).1.link last C
      with hG2
    set p3 := buildBlock G2 C body with hp3
    have hC2 : C = g.nodes.length := by rw [hC, snd_add]
    have hG2len : G2.nodes.length = g.nodes.length + 1 := by
      rw [hG2, length_link, length_add]
    have h1 : closedE G2 (C :: S) := by
      rw [hG2, hC]
      exact closedE_addLink last .cond _ hlast h
    have h2 : closedE p3.1 (p3.2 :: S) := by
      rw [hp3]
      exact buildBlock_closed G2 C (by omega) (by omega) body hwfb S h1
    have hp3len : g.nodes.length + 1 ≤ p3.1.nodes.length := by
      rw [← hG2len]; exact hbg.len_mono
    have httlt : p3.2 < p3.1.nodes.length := by
      rcases hblt with hh | hh
      · omega
      · exact hh
    refine closedE_link _ _ ?_
    refine closedE_weaken ?_
      (closedE_add .op (chars "after for") (closedE_link_close p3.2 C httlt h2))
    intro x hx
    exact hx
  | .whileS test body => by
    intro hwf S h
    have hwfb : wfBlock body = true := by simpa [wfS] using hwf
    obtain ⟨hbg, hbt, hblt⟩ := buildBlock_grows
      ((g.add .cond (chars "while " ++ test)).1.link last
        (g.add .cond (chars "while " ++ test)).2)
      (g.add .cond (chars "while " ++ test)).2
      (by rw [length_addLink]; omega) body
    simp only [buildStmt]
    set C := (g.add .cond (chars "while " ++ test)).2 with hC
    set G2 := (g.add .cond (chars "while " ++ test)).1.link last C with hG2
    set p3 := buildBlock G2 C body with hp3
    have hC2 : C = g.nodes.length := by rw [hC, snd_add]
    have hG2len : G2.nodes.length = g.nodes.length + 1 := by
      rw [hG2, length_link, length_add]
    have h1 : closedE G2 (C :: S) := by
      rw [hG2, hC]
      exact closedE_addLink last .cond _ hlast h
    have h2 : closedE p3.1 (p3.2 :: S) := by
      rw [hp3]
      exact buildBlock_closed G2 C (by omega) (by omega) body hwfb S h1
    have hp3len : g.nodes.length + 1 ≤ p3.1.nodes.length := by
      rw [← hG2len]; exact hbg.len_mono
    have httlt : p3.2 < p3.1.nodes.length := by
      rcases hblt with hh | hh
      · omega
      · exact hh
    refine closedE_link _ _ ?_
    refine closedE_weaken ?_
      (closedE_add .op (chars "after while") (closedE_link_close p3.2 C httlt h2))
    intro x hx
    exact hx
  | .withS items body => by
    intro hwf S h
    have hwfb : wfBlock body = true := by simpa [wfS] using hwf
    simp only [buildStmt]
    set C := (g.add .op (chars "with " ++ joinSep (chars "; ") items)).2 with hC
    set G2 := (g.add .op (chars "with " ++ joinSep (chars "; ") items)).1.link last C
      with hG2
    have hC2 : C = g.nodes.length := by rw [hC, snd_add]
    have hG2len : G2.nodes.length = g.nodes.length + 1 := by
      rw [hG2, length_link, length_add]
    have h1 : closedE G2 (C :: S) := by
      rw [hG2, hC]
      exact closedE_addLink last .op _ hlast h
    exact buildBlock_closed G2 C (by omega) (by omega) body hwfb S h1
  | .tryS body handlers orelse finalbody => by
    intro hwf S h
    have hwfb : wfBlock body = true ∧ wfPairs handlers = true ∧
        wfBlock orelse = true ∧ wfBlock finalbody = true := by
      simpa [wfS, Bool.and_eq_true, and_assoc] using hwf
    obtain ⟨hbg, hbt, hblt⟩ := buildBlock_grows
      ((g.add .op (chars "try")).1.link last (g.add .op (chars "try")).2)
      (g.add .op (chars "try")).2
      (by rw [length_addLink]; omega) body
    set C := (g.add .op (chars "try")).2 with hC
    set G2 := (g.add .op (chars "try")).1.link last C with hG2
    set p3 := buildBlock G2 C body with hp3
    have hC2 : C = g.nodes.length := by rw [hC, snd_add]
    have hG2len : G2.nodes.length = g.nodes.length + 1 := by
      rw [hG2, length_link, length_add]
    have h1 : closedE G2 (C :: S) := by
      rw [hG2, hC]
      exact closedE_addLink last .op _ hlast h
    have h2 : closedE p3.1 (p3.2 :: S) := by
      rw [hp3]
      exact buildBlock_closed G2 C (by omega) (by omega) body hwfb.1 S h1
    have hp3len : g.nodes.length + 1 ≤ p3.1.nodes.length := by
      rw [← hG2len]; exact hbg.len_mono
    have httlt : p3.2 < p3.1.nodes.length := by
      rcases hblt with hh | hh
      · omega
      · exact hh
    obtain ⟨hhg, hhts⟩ := buildHandlers_grows p3.1 C (by omega) handlers
    set p4 := buildHandlers p3.1 C handlers with hp4
    have h3 : closedE p4.1 (p4.2 ++ p3.2 :: S) := by
      rw [hp4]
      exact buildHandlers_closed p3.1 C (by omega) handlers hwfb.2.1 (p3.2 :: S) h2
    have hp4len : p3.1.nodes.length ≤ p4.1.nodes.length := hhg.len_mono
    -- after the optional else clause: a closed graph except the exits
    have hexits : closedE (if orelse.isEmpty then (p4.1, p3.2 :: p4.2)
          else
            let q1 := p4.1.add .op (chars "else")
            let q2 := q1.1.link p3.2 q1.2
            let q3 := buildBlock q2 q1.2 orelse
            (q3.1, q3.2 :: p4.2)).1
          ((if orelse.isEmpty then (p4.1, p3.2 :: p4.2)
          else
            let q1 := p4.1.add .op (chars "else")
            let q2 := q1.1.link p3.2 q1.2
            let q3 := buildBlock q2 q1.2 orelse
            (q3.1, q3.2 :: p4.2)).2 ++ S) ∧
        g.nodes.length ≤ (if orelse.isEmpty then (p4.1, p3.2 :: p4.2)
          else
            let q1 := p4.1.add .op (chars "else")
            let q2 := q1.1.link p3.2 q1.2
            let q3 := buildBlock q2 q1.2 orelse
            (q3.1, q3.2 :: p4.2)).1.nodes.length ∧
        (∀ x ∈ (if orelse.isEmpty then (p4.1, p3.2 :: p4.2)
          else
            let q1 := p4.1.add .op (chars "else")
            let q2 := q1.1.link p3.2 q1.2
            let q3 := buildBlock q2 q1.2 orelse
            (q3.1, q3.2 :: p4.2)).2,
          x < (if orelse.isEmpty then (p4.1, p3.2 :: p4.2)
          else
            let q1 := p4.1.add .op (chars "else")
            let q2 := q1.1.link p3.2 q1.2
            let q3 := buildBlock q2 q1.2 orelse
            (q3.1, q3.2 :: p4.2)).1.nodes.length) := by
      by_cases ho : orelse.isEmpty = true
      · rw [if_pos ho]
        dsimp only
        refine ⟨?_, by omega, ?_⟩
        · refine closedE_weaken ?_ h3
          intro x hx
          simp only [List.mem_cons, List.mem_append] at hx ⊢
          itauto
        · intro x hx
          rcases List.mem_cons.1 hx with hx | hx
          · omega
          · exact (hhts x hx).2
      · rw [if_neg ho]
        dsimp only
        obtain ⟨heg, het, helt⟩ := buildBlock_grows
          ((p4.1.add .op (chars "else")).1.link p3.2 (p4.1.add .op (chars "else")).2)
          (p4.1.add .op (chars "else")).2
          (by rw [length_addLink]; omega) orelse
        set E := (p4.1.add .op (chars "else")).2 with hE
        set Q2 := (p4.1.add .op (chars "else")).1.link p3.2 E with hQ2
        set q3 := buildBlock Q2 E orelse with hq3
        have hE2 : E = p4.1.nodes.length := by rw [hE, snd_add]
        have hQ2len : Q2.nodes.length = p4.1.nodes.length + 1 := by
          rw [hQ2, length_link, length_add]
        have h4 : closedE Q2 (E :: (p4.2 ++ S)) := by
          rw [hQ2, hE]
          refine closedE_link_close p3.2 _ (by rw [length_add]; omega) ?_
          refine closedE_weaken ?_ (closedE_add .op (chars "else") h3)
          intro x hx
          simp only [List.mem_cons, List.mem_append] at hx ⊢
          itauto
        have h5 : closedE q3.1 (q3.2 :: (p4.2 ++ S)) := by
          rw [hq3]
          exact buildBlock_closed Q2 E (by omega) (by omega) orelse hwfb.2.2.1
            (p4.2 ++ S) h4
        have hq3len : p4.1.nodes.length + 1 ≤ q3.1.nodes.length := by
          rw [← hQ2len]; exact heg.len_mono
        refine ⟨?_, by omega, ?_⟩
        · refine closedE_weaken ?_ h5
          intro x hx
          simp only [List.mem_cons, List.mem_append] at hx ⊢
          itauto
        · intro x hx
          rcases List.mem_cons.1 hx with hx | hx
          · subst hx
            rcases helt with hh | hh
            · omega
            · exact hh
          · obtain ⟨_, hx2⟩ := hhts x hx
            omega
    set p5 := (if orelse.isEmpty then (p4.1, p3.2 :: p4.2)
      else
        let q1 := p4.1.add .op (chars "else")
        let q2 := q1.1.link p3.2 q1.2
        let q3 := buildBlock q2 q1.2 orelse
        (q3.1, q3.2 :: p4.2)) with hp5
    obtain ⟨hp5c, hp5len, hp5x⟩ := hexits
    by_cases hf : finalbody.isEmpty = true
    · simp only [buildStmt, if_pos hf, ← hC, ← hG2, ← hp3, ← hp4, ← hp5]
      refine closedE_linkAll_close _ ?_ ?_
      · intro x hx
        rw [length_add]
        exact lt_trans (hp5x x hx) (by omega)
      · refine closedE_weaken ?_ (closedE_add .op (chars "after try") hp5c)
        intro x hx
        simp only [List.mem_cons, List.mem_append] at hx ⊢
        itauto
    · simp only [buildStmt, if_neg hf, ← hC, ← hG2, ← hp3, ← hp4, ← hp5]
      set F := (p5.1.add .op (chars "finally")).2 with hF
      set G7 := linkAll (p5.1.add .op (chars "finally")).1 p5.2 F with hG7
      have hF2 : F = p5.1.nodes.length := by rw [hF, snd_add]
      have hG7len : G7.nodes.length = p5.1.nodes.length + 1 := by
        rw [hG7, length_linkAll, length_add]
      have h6 : closedE G7 (F :: S) := by
        rw [hG7]
        refine closedE_linkAll_close F ?_ ?_
        · intro x hx
          rw [length_add]
          exact lt_trans (hp5x x hx) (by omega)
        · refine closedE_weaken ?_ (closedE_add .op (chars "finally") hp5c)
          intro x hx
          simp only [List.mem_cons, List.mem_append] at hx ⊢
          itauto
      exact buildBlock_closed G7 F (by omega) (by omega) finalbody hwfb.2.2.2 S h6
  | .funcDef name params body => by
    intro _ S h
    simp only [buildStmt]
    exact closedE_addLink last .op _ hlast h
  | .classDef name => by
    intro _ S h
    simp only [buildStmt]
    exact closedE_addLink last .op _ hlast h
  | .ret value => by
    intro _ S h
    simp only [buildStmt]
    exact closedE_link _ 1 (closedE_addLink last .op _ hlast h)
  | .raiseS exc => by
    intro _ S h
    simp only [buildStmt]
    exact closedE_link _ 1 (closedE_addLink last .op _ hlast h)
  | .brk => by
    intro _ S h
    simp only [buildStmt]
    exact closedE_addLink last .op _ hlast h
  | .cont => by
    intro _ S h
    simp only [buildStmt]
    exact closedE_addLink last .op _ hlast h
  | .matchS subject cases => by
    intro hwf S h
    have hwfc : cases.isEmpty = false ∧ wfPairs cases = true := by
      have := hwf
      simp only [wfS, Bool.and_eq_true, Bool.not_eq_true'] at this
      exact this
    simp only [buildStmt]
    set H := (g.add .op (chars "match " ++ subject)).2 with hH
    set G2 := (g.add .op (chars "match " ++ subject)).1.link last H with hG2
    set p3 := buildCases G2 H cases with hp3
    have hH2 : H = g.nodes.length := by rw [hH, snd_add]
    have hG2len : G2.nodes.length = g.nodes.length + 1 := by
      rw [hG2, length_link, length_add]
    obtain ⟨hcg, hcts⟩ := buildCases_grows G2 H (by omega) cases
    have h1 : closedE G2 (H :: S) := by
      rw [hG2, hH]
      exact closedE_addLink last .op _ hlast h
    have h2 : closedE p3.1 (p3.2 ++ S) := by
      rw [hp3]
      refine (buildCases_closed G2 H (by omega) (by omega) cases hwfc.2 S h1).2 ?_
      intro hc
      rw [hc] at hwfc
      simp at hwfc
    refine closedE_linkAll_close _ ?_ ?_
    · intro x hx
      rw [length_add]
      exact lt_trans ((hp3 ▸ hcts) x hx).2 (by omega)
    · refine closedE_weaken ?_ (closedE_add .op (chars "after match") h2)
      intro x hx
      simp only [List.mem_cons, List.mem_append] at hx ⊢
      itauto
  | .simple txt => by
    intro _ S h
    simp only [buildStmt]
    exact closedE_addLink last .op _ hlast h

theorem buildBlock_closed (g : Graph) (last : Nat) (hlen : 2 ≤ g.nodes.length)
    (hlast : last < g.nodes.length) :
    (l : List Stmt) → wfBlock l = true → ∀ S : List Nat, closedE g (last :: S) →
      closedE (buildBlock g last l).1 ((buildBlock g last l).2 :: S)
  | [] => by
    intro _ S h
    simpa only [buildBlock] using h
  | s :: rest => by
    intro hwf S h
    have hwfb : wfS s = true ∧ wfBlock rest = true := by
      simpa [wfBlock, Bool.and_eq_true] using hwf
    simp only [buildBlock]
    obtain ⟨hsg, hst, hslt⟩ := buildStmt_grows g last hlen s
    refine buildBlock_closed (buildStmt g last s).1 (buildStmt g last s).2
      (by have := hsg.len_mono; omega) hslt rest hwfb.2 S ?_
    exact buildStmt_closed g last hlen hlast s hwfb.1 S h

theorem buildHandlers_closed (g : Graph) (hdr : Nat) (hlen : 2 ≤ g.nodes.length) :
    (hs : List (List Char × List Stmt)) → wfPairs hs = true →
      ∀ S : List Nat, closedE g S →
      closedE (buildHandlers g hdr hs).1 ((buildHandlers g hdr hs).2 ++ S)
  | [] => by
    intro _ S h
    simpa only [buildHandlers] using h
  | (typ, hbody) :: rest => by
    intro hwf S h
    have hwfb : wfBlock hbody = true ∧ wfPairs rest = true := by
      simpa [wfPairs, Bool.and_eq_true] using hwf
    simp only [buildHandlers]
    set N := (g.add .op (exceptLabel typ)).2 with hN
    set G2 := (g.add .op (exceptLabel typ)).1.link hdr N with hG2
    set p3 := buildBlock G2 N hbody with hp3
    have hN2 : N = g.nodes.length := by rw [hN, snd_add]
    have hG2len : G2.nodes.length = g.nodes.length + 1 := by
      rw [hG2, length_link, length_add]
    have h1 : closedE G2 (N :: S) := by
      rw [hG2, hN]
      exact closedE_link _ _ (closedE_add .op (exceptLabel typ) h)
    have h2 : closedE p3.1 (p3.2 :: S) := by
      rw [hp3]
      exact buildBlock_closed G2 N (by omega) (by omega) hbody hwfb.1 S h1
    obtain ⟨hbg, _, _⟩ := buildBlock_grows G2 N (by omega) hbody
    have hp3len : g.nodes.length + 1 ≤ p3.1.nodes.length := by
      rw [← hG2len]
      exact (hp3 ▸ hbg).len_mono
    have h3 : closedE (buildHandlers p3.1 hdr rest).1
        ((buildHandlers p3.1 hdr rest).2 ++ (p3.2 :: S)) :=
      buildHandlers_closed p3.1 hdr (by omega) rest hwfb.2 (p3.2 :: S) h2
    refine closedE_weaken ?_ h3
    intro x hx
    simp only [List.mem_cons, List.mem_append] at hx ⊢
    itauto

theorem buildCases_closed (g : Graph) (hd : Nat) (hlen : 2 ≤ g.nodes.length)
    (hhd : hd < g.nodes.length) :
    (cs : List (List Char × List Stmt)) → wfPairs cs = true →
      ∀ S : List Nat, closedE g (hd :: S) →
      closedE (buildCases g hd cs).1 ((buildCases g hd cs).2 ++ (hd :: S)) ∧
      (cs ≠ [] → closedE (buildCases g hd cs).1 ((buildCases g hd cs).2 ++ S))
  | [] => by
    intro _ S h
    constructor
    · simpa only [buildCases] using h
    · intro hc
      exact absurd rfl hc
  | (pat, cbody) :: rest => by
    intro hwf S h
    have hwfb : wfBlock cbody = true ∧ wfPairs rest = true := by
      simpa [wfPairs, Bool.and_eq_true] using hwf
    simp only [buildCases]
    set N := (g.add .op (chars "case " ++ pat)).2 with hN
    set G2 := (g.add .op (chars "case " ++ pat)).1.link hd N with hG2
    set p3 := buildBlock G2 N cbody with hp3
    have hN2 : N = g.nodes.length := by rw [hN, snd_add]
    have hG2len : G2.nodes.length = g.nodes.length + 1 := by
      rw [hG2, length_link, length_add]
    have h1 : closedE G2 (N :: S) := by
      rw [hG2, hN]
      exact closedE_addLink hd .op _ hhd h
    have h2 : closedE p3.1 (p3.2 :: S) := by
      rw [hp3]
      exact buildBlock_closed G2 N (by omega) (by omega) cbody hwfb.1 S h1
    obtain ⟨hbg, _, _⟩ := buildBlock_grows G2 N (by omega) cbody
    have hp3len : g.nodes.length + 1 ≤ p3.1.nodes.length := by
      rw [← hG2len]
      exact (hp3 ▸ hbg).len_mono
    have h3 := buildCases_closed p3.1 hd (by omega) (by omega) rest hwfb.2
      (p3.2 :: S) (by
        refine closedE_weaken ?_ h2
        intro x hx
        simp only [List.mem_cons] at hx ⊢
        tauto)
    constructor
    · refine closedE_weaken ?_ h3.1
      intro x hx
      simp only [List.mem_cons, List.mem_append] at hx ⊢
      itauto
    · intro _
      rcases List.eq_nil_or_concat rest with hr | _
      · subst hr
        refine closedE_weaken ?_ h2
        intro x hx
        simp only [buildCases, List.mem_cons, List.mem_append] at hx ⊢
        itauto
      · have h4 := h3.2 (by
          rename_i hcon
          obtain ⟨ys, y, hy⟩ := hcon
          rw [hy]
          simp)
        refine closedE_weaken ?_ h4
        intro x hx
        simp only [List.mem_cons, List.mem_append] at hx ⊢
        itauto

end

/-! ## Scope-level corollaries -/

theorem scope_closure (T : List Char) (stmts : List Stmt)
    (hwf : wfBlock stmts = true) :
    (∀ i, i < ((buildBlock (mkGraph T) 0 stmts).1.link
        (buildBlock (mkGraph T) 0 stmts).2 1).nodes.length → i ≠ 1 →
      nextsOf ((buildBlock (mkGraph T) 0 stmts).1.link
        (buildBlock (mkGraph T) 0 stmts).2 1) i ≠ []) ∧
    (∃ i, i < ((buildBlock (mkGraph T) 0 stmts).1.link
        (buildBlock (mkGraph T) 0 stmts).2 1).nodes.length ∧
      edgeIn ((buildBlock (mkGraph T) 0 stmts).1.link
        (buildBlock (mkGraph T) 0 stmts).2 1) i 1) := by
  have hlen : (mkGraph T).nodes.length = 2 := rfl
  obtain ⟨hg, ht, hlt⟩ := buildBlock_grows (mkGraph T) 0 (by omega) stmts
  have hc : closedE (buildBlock (mkGraph T) 0 stmts).1
      ((buildBlock (mkGraph T) 0 stmts).2 :: []) :=
    buildBlock_closed (mkGraph T) 0 (by omega) (by omega) stmts hwf []
      (closedE_mkGraph T [])
  have hmono := hg.len_mono
  have htlt : (buildBlock (mkGraph T) 0 stmts).2 <
      (buildBlock (mkGraph T) 0 stmts).1.nodes.length := by
    rcases hlt with h | h
    · omega
    · exact h
  constructor
  · intro i hi h1
    have := closedE_link_close (buildBlock (mkGraph T) 0 stmts).2 1 htlt hc
    exact this i hi h1 (by simp)
  · refine ⟨(buildBlock (mkGraph T) 0 stmts).2, ?_, ?_⟩
    · rw [length_link]
      exact htlt
    · exact mem_nextsOf_link _ _ 1 htlt

/-- C4: for every well-formed statement tree (parsed Python guarantees
every `match` has at least one case), both module synthesis and
function synthesis produce a graph in which every node except `End`
(index 1) has at least one outgoing edge, and `End` has at least one
incoming edge. -/
theorem c4_structural_closure (title name : List Char)
    (params : List (List Char)) (stmts : List Stmt)
    (hwf : wfBlock stmts = true) :
    ((∀ i, i < (buildModule title stmts).nodes.length → i ≠ 1 →
        nextsOf (buildModule title stmts) i ≠ []) ∧
      (∃ i, i < (buildModule title stmts).nodes.length ∧
        edgeIn (buildModule title stmts) i 1)) ∧
    ((∀ i, i < (buildFunction name params stmts).nodes.length → i ≠ 1 →
        nextsOf (buildFunction name params stmts) i ≠ []) ∧
      (∃ i, i < (buildFunction name params stmts).nodes.length ∧
        edgeIn (buildFunction name params stmts) i 1)) := by
  constructor
  · obtain ⟨h1, h2⟩ := scope_closure title stmts hwf
    refine ⟨?_, ?_⟩
    · simpa only [buildModule] using h1
    · obtain ⟨i, hi, he⟩ := h2
      exact ⟨i, by simpa only [buildModule] using hi,
        by simpa only [buildModule] using he⟩
  · obtain ⟨h1, h2⟩ := scope_closure (sigOf name params) stmts hwf
    refine ⟨?_, ?_⟩
    · simpa only [buildFunction] using h1
    · obtain ⟨i, hi, he⟩ := h2
      exact ⟨i, by simpa only [buildFunction] using hi,
        by simpa only [buildFunction] using he⟩

/-- C4, witness: the closure invariant evaluated on the spec's
`if x: return 1` example. -/
theorem c4_witness :
    wfBlock [Stmt.ifS (chars "x") [.ret (chars "1")] []] = true ∧
    (∀ i, i < (buildModule (chars "m") [Stmt.ifS (chars "x") [.ret (chars "1")] []]).nodes.length →
      i ≠ 1 →
      nextsOf (buildModule (chars "m") [Stmt.ifS (chars "x") [.ret (chars "1")] []]) i ≠ []) :=
  ⟨by decide,
    ((c4_structural_closure (chars "m") (chars "f") [] [Stmt.ifS (chars "x") [.ret (chars "1")] []]
      (by decide)).1).1⟩

theorem title_buildModule (T : List Char) (stmts : List Stmt) :
    (buildModule T stmts).title = T := by
  simp only [buildModule]
  rw [title_link, (buildBlock_grows (mkGraph T) 0 (by rfl) stmts).1.title_eq]
  rfl

theorem title_buildFunction (name : List Char) (params : List (List Char))
    (body : List Stmt) : (buildFunction name params body).title = sigOf name params := by
  simp only [buildFunction]
  rw [title_link,
    (buildBlock_grows (mkGraph (sigOf name params)) 0 (by rfl) body).1.title_eq]
  rfl

/-- C8 (amended): the title in each returned `(title, flowchart_text)`
pair is the file name followed by `" (module)"` for the module scope,
and the bare `name(params)` signature for a function scope (the
`file::function` string passed to the Builder constructor is discarded
when `build_function` replaces the graph). -/
theorem c8_titles (fileName : List Char) (tree : List Stmt) :
    (buildForFile fileName tree).map Prod.fst =
      (fileName ++ chars " (module)") ::
        tree.filterMap (fun s =>
          match s with
          | .funcDef n ps _ => some (sigOf n ps)
          | _ => none) := by
  simp only [buildForFile, List.map_cons, title_buildModule]
  congr 1
  induction tree with
  | nil => rfl
  | cons s rest ih =>
    cases s
    case funcDef n ps b =>
      simp only [List.filterMap_cons, List.map_cons]
      rw [title_buildFunction n ps b, ih]
    all_goals
      simp only [List.filterMap_cons]
      exact ih

/-! ## Character-wise characterization of the escaping passes -/

theorem cmap_append (f : Char → List Char) (a b : List Char) :
    cmap f (a ++ b) = cmap f a ++ cmap f b := by
  induction a with
  | nil => rfl
  | cons c cs ih =>
    simp only [List.cons_append, cmap, List.append_eq]
    rw [ih, List.append_assoc]

theorem cmap_cmap (f g : Char → List Char) (s : List Char) :
    cmap g (cmap f s) = cmap (fun c => cmap g (f c)) s := by
  induction s with
  | nil => rfl
  | cons c cs ih =>
    simp only [cmap, cmap_append, ih]

theorem cmap_congr (f g : Char → List Char) (s : List Char)
    (h : ∀ c, f c = g c) : cmap f s = cmap g s := by
  induction s with
  | nil => rfl
  | cons c cs ih =>
    simp only [cmap, h c, ih]

theorem replace1_eq_cmap (p0 : Char) (rep : List Char) (s : List Char) :
    replaceL p0 [] rep s = cmap (fun c => if c = p0 then rep else [c]) s := by
  induction s with
  | nil => rfl
  | cons c cs ih =>
    by_cases hc : c = p0
    · rw [replaceL_cons_pos p0 [] rep c cs ⟨hc, by simp [List.isPrefixOf]⟩]
      simp only [List.length_nil, List.drop_zero, cmap, if_pos hc, ih]
    · rw [replaceL_cons_neg p0 [] rep c cs (by simp [hc])]
      simp only [cmap, if_neg hc, ih, List.singleton_append]

theorem crlf_norm (s : List Char) :
    replaceL '\r' [] ['\n'] (replaceL '\r' ['\n'] ['\n'] s) = normNewlines s := by
  induction s using normNewlines.induct with
  | case1 => rfl
  | case2 => rfl
  | case3 c hc =>
    rw [replaceL_cons_neg '\r' ['\n'] ['\n'] c [] (by simp [hc]), replaceL_nil,
      replaceL_cons_neg '\r' [] ['\n'] c [] (by simp [hc]), replaceL_nil]
    simp [normNewlines, hc]
  | case4 cs ih =>
    rw [replaceL_cons_pos '\r' ['\n'] ['\n'] '\r' ('\n' :: cs)
      ⟨rfl, by simp [List.isPrefixOf]⟩]
    rw [show List.drop (['\n'] : List Char).length ('\n' :: cs) = cs from rfl]
    rw [List.singleton_append,
      replaceL_cons_neg '\r' [] ['\n'] '\n' _ (by simp), ih]
    simp [normNewlines]
  | case5 c2 cs h2 ih =>
    have hpre : ((['\n'] : List Char).isPrefixOf (c2 :: cs)) = false := by
      simp only [List.isPrefixOf, Bool.and_eq_false_iff]
      left
      simp only [beq_eq_false_iff_ne, ne_eq]
      exact fun h => h2 h.symm
    rw [replaceL_cons_neg '\r' ['\n'] ['\n'] '\r' (c2 :: cs) (by simp [hpre])]
    rw [replaceL_cons_pos '\r' [] ['\n'] '\r' _ ⟨rfl, by simp [List.isPrefixOf]⟩]
    rw [show List.drop ([] : List Char).length
      (replaceL '\r' ['\n'] ['\n'] (c2 :: cs)) =
      replaceL '\r' ['\n'] ['\n'] (c2 :: cs) from rfl]
    rw [List.singleton_append, ih]
    simp [normNewlines, h2]
  | case6 c1 c2 cs h1 ih =>
    rw [replaceL_cons_neg '\r' ['\n'] ['\n'] c1 (c2 :: cs) (by simp [h1])]
    rw [replaceL_cons_neg '\r' [] ['\n'] c1 _ (by simp [h1])]
    rw [ih]
    simp [normNewlines, h1]

theorem angle_fuse (s : List Char) :
    replaceL '>' [] ['&', 'g', 't', ';'] (replaceL '<' [] ['&', 'l', 't', ';'] s) =
      specSub4 s := by
  rw [replace1_eq_cmap, replace1_eq_cmap]
  unfold specSub4
  rw [cmap_cmap]
  refine cmap_congr _ _ s ?_
  intro c
  by_cases h1 : c = '<'
  · subst h1
    rfl
  · by_cases h2 : c = '>'
    · subst h2
      rfl
    · simp [h1, h2, cmap]

/-! ## Round-trip of escaping on safe labels -/

theorem esc_eq_subs (s : List Char) :
    escMermaidLabel s = specSub5 (specSub4 (specSub3 (specSub2 (specSub1 s)))) := by
  unfold escMermaidLabel specSub5 specSub3 specSub2 specSub1
  dsimp only
  rw [crlf_norm, angle_fuse]
  rw [replace1_eq_cmap, replace1_eq_cmap, replace1_eq_cmap, replace1_eq_cmap]

theorem isPre_cons_neg (p c : Char) (ps xs : List Char) (h : ¬ c = p) :
    ((p :: ps).isPrefixOf (c :: xs)) = false := by
  simp only [List.isPrefixOf, Bool.and_eq_false_iff]
  left
  simp only [beq_eq_false_iff_ne, ne_eq]
  exact fun hh => h hh.symm

/-- Scanning skips the current character when the character after it
breaks the pattern. -/
theorem replaceL_skip (p0 p : Char) (ps rep : List Char) (c a : Char)
    (xs : List Char) (h : ¬ a = p) :
    replaceL p0 (p :: ps) rep (c :: a :: xs) =
      c :: replaceL p0 (p :: ps) rep (a :: xs) := by
  refine replaceL_cons_neg _ _ _ _ _ ?_
  rintro ⟨-, hh⟩
  rw [isPre_cons_neg p a ps xs h] at hh
  cases hh

/-- Scanning skips the current character when it is not the pattern
head. -/
theorem replaceL_skip0 (p0 : Char) (pr rep : List Char) (c : Char)
    (xs : List Char) (h : ¬ c = p0) :
    replaceL p0 pr rep (c :: xs) = c :: replaceL p0 pr rep xs :=
  replaceL_cons_neg _ _ _ _ _ (fun hh => h hh.1)

theorem safe_parts {c : Char} {cs : List Char}
    (h : safeLabel (c :: cs) = true) :
    safeLabel cs = true ∧ ¬ c = '\r' ∧ ¬ c = '&' ∧
      (c = '\\' → headIsN cs = false) := by
  simp only [safeLabel, Bool.and_eq_true, Bool.not_eq_true',
    Bool.or_eq_false_iff, Bool.and_eq_false_iff, beq_eq_false_iff_ne,
    ne_eq] at h
  obtain ⟨⟨⟨h1, h2⟩, h3⟩, h4⟩ := h
  refine ⟨h4, h1, h2, ?_⟩
  intro hb
  rcases h3 with h3 | h3
  · exact absurd hb h3
  · exact h3

theorem safe_noCR (s : List Char) (h : safeLabel s = true) : '\r' ∉ s := by
  induction s with
  | nil => simp
  | cons c cs ih =>
    obtain ⟨hcs, hcr, -, -⟩ := safe_parts h
    simp only [List.mem_cons, not_or]
    exact ⟨fun e => hcr e.symm, ih hcs⟩

theorem normNewlines_id (s : List Char) (h : '\r' ∉ s) :
    normNewlines s = s := by
  induction s using normNewlines.induct with
  | case1 => rfl
  | case2 => simp at h
  | case3 c hc => simp [normNewlines, hc]
  | case4 cs ih => simp at h
  | case5 c2 cs h2 ih => simp at h
  | case6 c1 c2 cs h1 ih =>
    have h2 : '\r' ∉ c2 :: cs := fun hm => h (List.mem_cons_of_mem _ hm)
    simp only [normNewlines, if_neg h1]
    rw [ih h2]

theorem noCR_cmap (f : Char → List Char) (hf : ∀ c, ¬ c = '\r' → '\r' ∉ f c)
    (s : List Char) (h : '\r' ∉ s) : '\r' ∉ cmap f s := by
  induction s with
  | nil => simp [cmap]
  | cons c cs ih =>
    have hc : ¬ c = '\r' := by
      intro e
      exact h (by rw [← e]; exact List.mem_cons_self c cs)
    have hcs : '\r' ∉ cs := fun hm => h (List.mem_cons_of_mem _ hm)
    simp only [cmap, List.mem_append, not_or]
    exact ⟨hf c hc, ih hcs⟩

/-- On carriage-return-free input the whole escaping acts
character-wise via `escChar5`. -/
theorem esc_charwise (s : List Char) (h : '\r' ∉ s) :
    escMermaidLabel s = cmap escChar5 s := by
  rw [esc_eq_subs]
  unfold specSub5 specSub4 specSub3 specSub2 specSub1
  have hf1 : ∀ c : Char, ¬ c = '\r' →
      '\r' ∉ (if c = '\\' then ['\\', '\\'] else [c]) := by
    intro c hc
    by_cases e : c = '\\'
    · subst e; decide
    · rw [if_neg e]
      simp only [List.mem_singleton]
      exact fun hh => hc hh.symm
  have hf2 : ∀ c : Char, ¬ c = '\r' →
      '\r' ∉ (if c = '\"' then ['\\', '\"'] else [c]) := by
    intro c hc
    by_cases e : c = '\"'
    · subst e; decide
    · rw [if_neg e]
      simp only [List.mem_singleton]
      exact fun hh => hc hh.symm
  rw [normNewlines_id _ (noCR_cmap _ hf2 _ (noCR_cmap _ hf1 _ h))]
  rw [cmap_cmap, cmap_cmap, cmap_cmap, cmap_cmap]
  refine cmap_congr _ _ s ?_
  intro c
  by_cases h1 : c = '\\'
  · subst h1; decide
  by_cases h2 : c = '\"'
  · subst h2; decide
  by_cases h3 : c = '\n'
  · subst h3; decide
  by_cases h4 : c = '<'
  · subst h4; decide
  by_cases h5 : c = '>'
  · subst h5; decide
  by_cases h6 : c = '`'
  · subst h6; decide
  simp [cmap, escChar5, h1, h2, h3, h4, h5, h6]

/-- Undoing the backtick escape on the escaped form. -/
theorem unesc_bt (s : List Char) :
    replaceL '\\' ['`'] ['`'] (cmap escChar5 s) = cmap escChar4 s ∧
    replaceL '\\' ['`'] ['`'] ('\\' :: cmap escChar5 s) =
      '\\' :: cmap escChar4 s := by
  induction s with
  | nil => exact ⟨rfl, by decide⟩
  | cons c cs ih =>
    by_cases h1 : c = '\\'
    · subst h1
      have e5 : escChar5 '\\' = ['\\', '\\'] := by decide
      have e4 : escChar4 '\\' = ['\\', '\\'] := by decide
      have m : replaceL '\\' ['`'] ['`'] (cmap escChar5 ('\\' :: cs)) =
          cmap escChar4 ('\\' :: cs) := by
        simp only [cmap, e5, e4, List.cons_append, List.nil_append]
        rw [replaceL_skip _ _ _ _ _ _ _ (by decide), ih.2]
      refine ⟨m, ?_⟩
      simp only [cmap, e5, e4, List.cons_append, List.nil_append] at m ⊢
      rw [replaceL_skip _ _ _ _ _ _ _ (by decide), m]
    by_cases h2 : c = '\"'
    · subst h2
      have e5 : escChar5 '\"' = ['\\', '\"'] := by decide
      have e4 : escChar4 '\"' = ['\\', '\"'] := by decide
      have m : replaceL '\\' ['`'] ['`'] (cmap escChar5 ('\"' :: cs)) =
          cmap escChar4 ('\"' :: cs) := by
        simp only [cmap, e5, e4, List.cons_append, List.nil_append]
        rw [replaceL_skip _ _ _ _ _ _ _ (by decide),
          replaceL_skip0 _ _ _ _ _ (by decide), ih.1]
      refine ⟨m, ?_⟩
      simp only [cmap, e5, e4, List.cons_append, List.nil_append] at m ⊢
      rw [replaceL_skip _ _ _ _ _ _ _ (by decide), m]
    by_cases h3 : c = '\n'
    · subst h3
      have e5 : escChar5 '\n' = ['\\', 'n'] := by decide
      have e4 : escChar4 '\n' = ['\\', 'n'] := by decide
      have m : replaceL '\\' ['`'] ['`'] (cmap escChar5 ('\n' :: cs)) =
          cmap escChar4 ('\n' :: cs) := by
        simp only [cmap, e5, e4, List.cons_append, List.nil_append]
        rw [replaceL_skip _ _ _ _ _ _ _ (by decide),
          replaceL_skip0 _ _ _ _ _ (by decide), ih.1]
      refine ⟨m, ?_⟩
      simp only [cmap, e5, e4, List.cons_append, List.nil_append] at m ⊢
      rw [replaceL_skip _ _ _ _ _ _ _ (by decide), m]
    by_cases h4 : c = '<'
    · subst h4
      have e5 : escChar5 '<' = ['&', 'l', 't', ';'] := by decide
      have e4 : escChar4 '<' = ['&', 'l', 't', ';'] := by decide
      have m : replaceL '\\' ['`'] ['`'] (cmap escChar5 ('<' :: cs)) =
          cmap escChar4 ('<' :: cs) := by
        simp only [cmap, e5, e4, List.cons_append, List.nil_append]
        rw [replaceL_skip0 _ _ _ _ _ (by decide),
          replaceL_skip0 _ _ _ _ _ (by decide),
          replaceL_skip0 _ _ _ _ _ (by decide),
          replaceL_skip0 _ _ _ _ _ (by decide), ih.1]
      refine ⟨m, ?_⟩
      simp only [cmap, e5, e4, List.cons_append, List.nil_append] at m ⊢
      rw [replaceL_skip _ _ _ _ _ _ _ (by decide), m]
    by_cases h5 : c = '>'
    · subst h5
      have e5 : escChar5 '>' = ['&', 'g', 't', ';'] := by decide
      have e4 : escChar4 '>' = ['&', 'g', 't', ';'] := by decide
      have m : replaceL '\\' ['`'] ['`'] (cmap escChar5 ('>' :: cs)) =
          cmap escChar4 ('>' :: cs) := by
        simp only [cmap, e5, e4, List.cons_append, List.nil_append]
        rw [replaceL_skip0 _ _ _ _ _ (by decide),
          replaceL_skip0 _ _ _ _ _ (by decide),
          replaceL_skip0 _ _ _ _ _ (by decide),
          replaceL_skip0 _ _ _ _ _ (by decide), ih.1]
      refine ⟨m, ?_⟩
      simp only [cmap, e5, e4, List.cons_append, List.nil_append] at m ⊢
      rw [replaceL_skip _ _ _ _ _ _ _ (by decide), m]
    by_cases h6 : c = '`'
    · subst h6
      have e5 : escChar5 '`' = ['\\', '`'] := by decide
      have e4 : escChar4 '`' = ['`'] := by decide
      have m : replaceL '\\' ['`'] ['`'] (cmap escChar5 ('`' :: cs)) =
          cmap escChar4 ('`' :: cs) := by
        simp only [cmap, e5, e4, List.cons_append, List.nil_append]
        rw [replaceL_cons_pos _ _ _ _ _ ⟨rfl, by simp [List.isPrefixOf]⟩]
        rw [show (('`' :: cmap escChar5 cs).drop (['`'] : List Char).length) =
          cmap escChar5 cs from rfl]
        rw [List.singleton_append, ih.1]
      refine ⟨m, ?_⟩
      simp only [cmap, e5, e4, List.cons_append, List.nil_append] at m ⊢
      rw [replaceL_skip _ _ _ _ _ _ _ (by decide), m]
    have e5 : escChar5 c = [c] := by
      simp [escChar5, h1, h2, h3, h4, h5, h6]
    have e4 : escChar4 c = [c] := by
      simp [escChar4, h1, h2, h3, h4, h5]
    have m : replaceL '\\' ['`'] ['`'] (cmap escChar5 (c :: cs)) =
        cmap escChar4 (c :: cs) := by
      simp only [cmap, e5, e4, List.cons_append, List.nil_append]
      rw [replaceL_skip0 _ _ _ _ _ h1, ih.1]
    refine ⟨m, ?_⟩
    simp only [cmap, e5, e4, List.cons_append, List.nil_append] at m ⊢
    rw [replaceL_skip _ _ _ _ _ _ _ h6, m]

/-- Undoing the `&gt;` entity on the once-unescaped form. -/
theorem unesc_gt : ∀ s : List Char, safeLabel s = true →
    replaceL '&' ['g', 't', ';'] ['>'] (cmap escChar4 s) =
      cmap escChar4a s := by
  intro s
  induction s with
  | nil => intro _; rfl
  | cons c cs ih =>
    intro hs
    obtain ⟨hcs, hcr, hamp, hbs⟩ := safe_parts hs
    by_cases h1 : c = '\\'
    · subst h1
      have e4 : escChar4 '\\' = ['\\', '\\'] := by decide
      have ea : escChar4a '\\' = ['\\', '\\'] := by decide
      simp only [cmap, e4, ea, List.cons_append, List.nil_append]
      rw [replaceL_skip0 _ _ _ _ _ (by decide),
        replaceL_skip0 _ _ _ _ _ (by decide), ih hcs]
    by_cases h2 : c = '\"'
    · subst h2
      have e4 : escChar4 '\"' = ['\\', '\"'] := by decide
      have ea : escChar4a '\"' = ['\\', '\"'] := by decide
      simp only [cmap, e4, ea, List.cons_append, List.nil_append]
      rw [replaceL_skip0 _ _ _ _ _ (by decide),
        replaceL_skip0 _ _ _ _ _ (by decide), ih hcs]
    by_cases h3 : c = '\n'
    · subst h3
      have e4 : escChar4 '\n' = ['\\', 'n'] := by decide
      have ea : escChar4a '\n' = ['\\', 'n'] := by decide
      simp only [cmap, e4, ea, List.cons_append, List.nil_append]
      rw [replaceL_skip0 _ _ _ _ _ (by decide),
        replaceL_skip0 _ _ _ _ _ (by decide), ih hcs]
    by_cases h4 : c = '<'
    · subst h4
      have e4 : escChar4 '<' = ['&', 'l', 't', ';'] := by decide
      have ea : escChar4a '<' = ['&', 'l', 't', ';'] := by decide
      simp only [cmap, e4, ea, List.cons_append, List.nil_append]
      rw [replaceL_skip _ _ _ _ _ _ _ (by decide),
        replaceL_skip0 _ _ _ _ _ (by decide),
        replaceL_skip0 _ _ _ _ _ (by decide),
        replaceL_skip0 _ _ _ _ _ (by decide), ih hcs]
    by_cases h5 : c = '>'
    · subst h5
      have e4 : escChar4 '>' = ['&', 'g', 't', ';'] := by decide
      have ea : escChar4a '>' = ['>'] := by decide
      simp only [cmap, e4, ea, List.cons_append, List.nil_append]
      rw [replaceL_cons_pos _ _ _ _ _ ⟨rfl, by simp [List.isPrefixOf]⟩]
      rw [show (('g' :: 't' :: ';' :: cmap escChar4 cs).drop
        (['g', 't', ';'] : List Char).length) = cmap escChar4 cs from rfl]
      rw [List.singleton_append, ih hcs]
    have e4 : escChar4 c = [c] := by
      simp [escChar4, h1, h2, h3, h4, h5]
    have ea : escChar4a c = [c] := by
      simp [escChar4a, h1, h2, h3, h4]
    simp only [cmap, e4, ea, List.cons_append, List.nil_append]
    rw [replaceL_skip0 _ _ _ _ _ hamp, ih hcs]

/-- Undoing the `&lt;` entity on the twice-unescaped form. -/
theorem unesc_lt : ∀ s : List Char, safeLabel s = true →
    replaceL '&' ['l', 't', ';'] ['<'] (cmap escChar4a s) =
      cmap escChar3 s := by
  intro s
  induction s with
  | nil => intro _; rfl
  | cons c cs ih =>
    intro hs
    obtain ⟨hcs, hcr, hamp, hbs⟩ := safe_parts hs
    by_cases h1 : c = '\\'
    · subst h1
      have ea : escChar4a '\\' = ['\\', '\\'] := by decide
      have e3 : escChar3 '\\' = ['\\', '\\'] := by decide
      simp only [cmap, ea, e3, List.cons_append, List.nil_append]
      rw [replaceL_skip0 _ _ _ _ _ (by decide),
        replaceL_skip0 _ _ _ _ _ (by decide), ih hcs]
    by_cases h2 : c = '\"'
    · subst h2
      have ea : escChar4a '\"' = ['\\', '\"'] := by decide
      have e3 : escChar3 '\"' = ['\\', '\"'] := by decide
      simp only [cmap, ea, e3, List.cons_append, List.nil_append]
      rw [replaceL_skip0 _ _ _ _ _ (by decide),
        replaceL_skip0 _ _ _ _ _ (by decide), ih hcs]
    by_cases h3 : c = '\n'
    · subst h3
      have ea : escChar4a '\n' = ['\\', 'n'] := by decide
      have e3 : escChar3 '\n' = ['\\', 'n'] := by decide
      simp only [cmap, ea, e3, List.cons_append, List.nil_append]
      rw [replaceL_skip0 _ _ _ _ _ (by decide),
        replaceL_skip0 _ _ _ _ _ (by decide), ih hcs]
    by_cases h4 : c = '<'
    · subst h4
      have ea : escChar4a '<' = ['&', 'l', 't', ';'] := by decide
      have e3 : escChar3 '<' = ['<'] := by decide
      simp only [cmap, ea, e3, List.cons_append, List.nil_append]
      rw [replaceL_cons_pos _ _ _ _ _ ⟨rfl, by simp [List.isPrefixOf]⟩]
      rw [show (('l' :: 't' :: ';' :: cmap escChar4a cs).drop
        (['l', 't', ';'] : List Char).length) = cmap escChar4a cs from rfl]
      rw [List.singleton_append, ih hcs]
    have ea : escChar4a c = [c] := by
      simp [escChar4a, h1, h2, h3, h4]
    have e3 : escChar3 c = [c] := by
      simp [escChar3, h1, h2, h3]
    simp only [cmap, ea, e3, List.cons_append, List.nil_append]
    rw [replaceL_skip0 _ _ _ _ _ hamp, ih hcs]

/-- Undoing the newline escape on the thrice-unescaped form of a safe
label. -/
theorem unesc_nl : ∀ s : List Char, safeLabel s = true →
    replaceL '\\' ['n'] ['\n'] (cmap escChar3 s) = cmap escChar2 s ∧
    (headIsN s = false →
      replaceL '\\' ['n'] ['\n'] ('\\' :: cmap escChar3 s) =
        '\\' :: cmap escChar2 s) := by
  intro s
  induction s with
  | nil => exact fun _ => ⟨rfl, fun _ => by decide⟩
  | cons c cs ih =>
    intro hs
    obtain ⟨hcs, hcr, hamp, hbs⟩ := safe_parts hs
    by_cases h1 : c = '\\'
    · subst h1
      have e3 : escChar3 '\\' = ['\\', '\\'] := by decide
      have e2 : escChar2 '\\' = ['\\', '\\'] := by decide
      have m : replaceL '\\' ['n'] ['\n'] (cmap escChar3 ('\\' :: cs)) =
          cmap escChar2 ('\\' :: cs) := by
        simp only [cmap, e3, e2, List.cons_append, List.nil_append]
        rw [replaceL_skip _ _ _ _ _ _ _ (by decide),
          (ih hcs).2 (hbs rfl)]
      refine ⟨m, fun _ => ?_⟩
      simp only [cmap, e3, e2, List.cons_append, List.nil_append] at m ⊢
      rw [replaceL_skip _ _ _ _ _ _ _ (by decide), m]
    by_cases h2 : c = '\"'
    · subst h2
      have e3 : escChar3 '\"' = ['\\', '\"'] := by decide
      have e2 : escChar2 '\"' = ['\\', '\"'] := by decide
      have m : replaceL '\\' ['n'] ['\n'] (cmap escChar3 ('\"' :: cs)) =
          cmap escChar2 ('\"' :: cs) := by
        simp only [cmap, e3, e2, List.cons_append, List.nil_append]
        rw [replaceL_skip _ _ _ _ _ _ _ (by decide),
          replaceL_skip0 _ _ _ _ _ (by decide), (ih hcs).1]
      refine ⟨m, fun _ => ?_⟩
      simp only [cmap, e3, e2, List.cons_append, List.nil_append] at m ⊢
      rw [replaceL_skip _ _ _ _ _ _ _ (by decide), m]
    by_cases h3 : c = '\n'
    · subst h3
      have e3 : escChar3 '\n' = ['\\', 'n'] := by decide
      have e2 : escChar2 '\n' = ['\n'] := by decide
      have m : replaceL '\\' ['n'] ['\n'] (cmap escChar3 ('\n' :: cs)) =
          cmap escChar2 ('\n' :: cs) := by
        simp only [cmap, e3, e2, List.cons_append, List.nil_append]
        rw [replaceL_cons_pos _ _ _ _ _ ⟨rfl, by simp [List.isPrefixOf]⟩]
        rw [show (('n' :: cmap escChar3 cs).drop
          (['n'] : List Char).length) = cmap escChar3 cs from rfl]
        rw [List.singleton_append, (ih hcs).1]
      refine ⟨m, fun _ => ?_⟩
      simp only [cmap, e3, e2, List.cons_append, List.nil_append] at m ⊢
      rw [replaceL_skip _ _ _ _ _ _ _ (by decide), m]
    have e3 : escChar3 c = [c] := by
      simp [escChar3, h1, h2, h3]
    have e2 : escChar2 c = [c] := by
      simp [escChar2, h1, h2]
    have m : replaceL '\\' ['n'] ['\n'] (cmap escChar3 (c :: cs)) =
        cmap escChar2 (c :: cs) := by
      simp only [cmap, e3, e2, List.cons_append, List.nil_append]
      rw [replaceL_skip0 _ _ _ _ _ h1, (ih hcs).1]
    refine ⟨m, fun hn => ?_⟩
    have hcn : ¬ c = 'n' := by
      intro e
      subst e
      simp [headIsN] at hn
    simp only [cmap, e3, e2, List.cons_append, List.nil_append] at m ⊢
    rw [replaceL_skip _ _ _ _ _ _ _ hcn, m]

/-- Undoing the quote escape. -/
theorem unesc_qt (s : List Char) :
    replaceL '\\' ['\"'] ['\"'] (cmap escChar2 s) = cmap escChar1 s ∧
    replaceL '\\' ['\"'] ['\"'] ('\\' :: cmap escChar2 s) =
      '\\' :: cmap escChar1 s := by
  induction s with
  | nil => exact ⟨rfl, by decide⟩
  | cons c cs ih =>
    by_cases h1 : c = '\\'
    · subst h1
      have e2 : escChar2 '\\' = ['\\', '\\'] := by decide
      have e1 : escChar1 '\\' = ['\\', '\\'] := by decide
      have m : replaceL '\\' ['\"'] ['\"'] (cmap escChar2 ('\\' :: cs)) =
          cmap escChar1 ('\\' :: cs) := by
        simp only [cmap, e2, e1, List.cons_append, List.nil_append]
        rw [replaceL_skip _ _ _ _ _ _ _ (by decide), ih.2]
      refine ⟨m, ?_⟩
      simp only [cmap, e2, e1, List.cons_append, List.nil_append] at m ⊢
      rw [replaceL_skip _ _ _ _ _ _ _ (by decide), m]
    by_cases h2 : c = '\"'
    · subst h2
      have e2 : escChar2 '\"' = ['\\', '\"'] := by decide
      have e1 : escChar1 '\"' = ['\"'] := by decide
      have m : replaceL '\\' ['\"'] ['\"'] (cmap escChar2 ('\"' :: cs)) =
          cmap escChar1 ('\"' :: cs) := by
        simp only [cmap, e2, e1, List.cons_append, List.nil_append]
        rw [replaceL_cons_pos _ _ _ _ _ ⟨rfl, by simp [List.isPrefixOf]⟩]
        rw [show (('\"' :: cmap escChar2 cs).drop
          (['\"'] : List Char).length) = cmap escChar2 cs from rfl]
        rw [List.singleton_append, ih.1]
      refine ⟨m, ?_⟩
      simp only [cmap, e2, e1, List.cons_append, List.nil_append] at m ⊢
      rw [replaceL_skip _ _ _ _ _ _ _ (by decide), m]
    have e2 : escChar2 c = [c] := by
      simp [escChar2, h1, h2]
    have e1 : escChar1 c = [c] := by
      simp [escChar1, h1]
    have m : replaceL '\\' ['\"'] ['\"'] (cmap escChar2 (c :: cs)) =
        cmap escChar1 (c :: cs) := by
      simp only [cmap, e2, e1, List.cons_append, List.nil_append]
      rw [replaceL_skip0 _ _ _ _ _ h1, ih.1]
    refine ⟨m, ?_⟩
    simp only [cmap, e2, e1, List.cons_append, List.nil_append] at m ⊢
    rw [replaceL_skip _ _ _ _ _ _ _ h2, m]

/-- Undoing the backslash doubling recovers the original string. -/
theorem unesc_bs (s : List Char) :
    replaceL '\\' ['\\'] ['\\'] (cmap escChar1 s) = s := by
  induction s with
  | nil => rfl
  | cons c cs ih =>
    by_cases h1 : c = '\\'
    · subst h1
      have e1 : escChar1 '\\' = ['\\', '\\'] := by decide
      simp only [cmap, e1, List.cons_append, List.nil_append]
      rw [replaceL_cons_pos _ _ _ _ _ ⟨rfl, by simp [List.isPrefixOf]⟩]
      rw [show (('\\' :: cmap escChar1 cs).drop
        (['\\'] : List Char).length) = cmap escChar1 cs from rfl]
      rw [List.singleton_append, ih]
    · have e1 : escChar1 c = [c] := by
        simp [escChar1, h1]
      simp only [cmap, e1, List.cons_append, List.nil_append]
      rw [replaceL_skip0 _ _ _ _ _ h1, ih]

/-- Full unescape of the full escape on a safe label. -/
theorem unesc_esc (s : List Char) (h : safeLabel s = true) :
    unescMermaidLabel (escMermaidLabel s) = s := by
  rw [esc_charwise s (safe_noCR s h)]
  unfold unescMermaidLabel
  dsimp only
  rw [(unesc_bt s).1, unesc_gt s h, unesc_lt s h, (unesc_nl s h).1,
    (unesc_qt s).1, unesc_bs s]

/-! ## Serializer edge-label lemmas -/

theorem edgeLinesAux_notCond (i : Nat) (k : Kind) (hk : k ≠ .cond) :
    ∀ (idx : Nat) (ns : List Nat),
      edgeLinesAux i k idx ns = ns.map (fun m => edgeLine i m []) := by
  intro idx ns
  induction ns generalizing idx with
  | nil => rfl
  | cons m ms ih =>
    simp only [edgeLinesAux, List.map_cons, edgeLabelFor, if_neg hk, ih]

theorem edgeLinesAux_cond_ge (i : Nat) :
    ∀ (idx : Nat) (ns : List Nat), 2 ≤ idx →
      edgeLinesAux i .cond idx ns = ns.map (fun m => edgeLine i m []) := by
  intro idx ns
  induction ns generalizing idx with
  | nil => intro _; rfl
  | cons m ms ih =>
    intro hidx
    have h0 : idx ≠ 0 := by omega
    have h1 : idx ≠ 1 := by omega
    simp only [edgeLinesAux, List.map_cons, edgeLabelFor, if_pos rfl,
      if_neg h0, if_neg h1, ih (idx + 1) (by omega), if_true]

/-! ## Claim theorems -/

/-- C2, counterexample: the serializer labels the first two successors
of a condition node `"True"` and `"False"` (capitalized), not `"true"`
and `"false"` as the claim states. -/
theorem c2_counterexample :
    edgeLinesFor 2 ⟨.cond, chars "c", [3, 4]⟩ =
      [chars "    n2 -->|True| n3", chars "    n2 -->|False| n4"] ∧
    chars "    n2 -->|True| n3" ≠ chars "    n2 -->|true| n3" ∧
    (chars "True" : List Char) ≠ chars "true" := by decide

/-- C2 (amended): for a condition node, the serializer emits the edge
line to the first successor labeled `"True"`, to the second labeled
`"False"`, and unlabeled lines for all later successors; edges of
non-condition nodes are always unlabeled. -/
theorem c2_condition_edge_labels (g : Graph) (i : Nat) :
    (∀ (m0 m1 : Nat) (rest : List Nat), (nodeAt g i).kind = .cond →
      (nodeAt g i).nexts = m0 :: m1 :: rest →
      edgeLinesFor i (nodeAt g i) =
        edgeLine i m0 (chars "True") :: edgeLine i m1 (chars "False") ::
          rest.map (fun m => edgeLine i m [])) ∧
    ((nodeAt g i).kind ≠ .cond →
      edgeLinesFor i (nodeAt g i) =
        (nodeAt g i).nexts.map (fun m => edgeLine i m [])) := by
  constructor
  · intro m0 m1 rest hk hn
    unfold edgeLinesFor
    rw [hk, hn]
    simp only [edgeLinesAux, List.map_cons, edgeLabelFor, if_pos rfl]
    norm_num
    exact edgeLinesAux_cond_ge i 2 rest le_rfl
  · intro hk
    exact edgeLinesAux_notCond i (nodeAt g i).kind hk 0 (nodeAt g i).nexts

/-- C2, witness: the amended labeling evaluated on a concrete
three-successor condition node. -/
theorem c2_witness :
    edgeLinesFor 0 (nodeAt ⟨chars "t", [⟨.cond, chars "c", [3, 4, 5]⟩]⟩ 0) =
      edgeLine 0 3 (chars "True") :: edgeLine 0 4 (chars "False") ::
        [5].map (fun m => edgeLine 0 m []) :=
  (c2_condition_edge_labels ⟨chars "t", [⟨.cond, chars "c", [3, 4, 5]⟩]⟩ 0).1
    3 4 [5] rfl rfl

/-- C6: synthesizing a function whose body is `if test: return value`
(no else) yields exactly the five-node graph of the claim: one
condition node (labeled with the test), a return node linked to both
`End` and the merge node, the merge node linked directly from the
condition node (false fall-through) and linked to `End`. -/
theorem c6_if_return_shape (name test value : List Char)
    (params : List (List Char)) :
    buildFunction name params [.ifS test [.ret value] []] =
      ⟨sigOf name params,
       [⟨.start, chars "Start: " ++ sigOf name params, [2]⟩,
        ⟨.stop, chars "End", []⟩,
        ⟨.cond, chars "if " ++ test, [3, 4]⟩,
        ⟨.op, chars "return " ++ value, [1, 4]⟩,
        ⟨.op, chars "merge", [1]⟩]⟩ := by
  have h0 : mkGraph (sigOf name params) =
      ⟨sigOf name params,
       [⟨.start, chars "Start: " ++ sigOf name params, []⟩,
        ⟨.stop, chars "End", []⟩]⟩ := rfl
  have h1 : Graph.add ⟨sigOf name params,
        [⟨.start, chars "Start: " ++ sigOf name params, []⟩,
         ⟨.stop, chars "End", []⟩]⟩ .cond (chars "if " ++ test) =
      (⟨sigOf name params,
        [⟨.start, chars "Start: " ++ sigOf name params, []⟩,
         ⟨.stop, chars "End", []⟩,
         ⟨.cond, chars "if " ++ test, []⟩]⟩, 2) := rfl
  have h2 : Graph.link ⟨sigOf name params,
        [⟨.start, chars "Start: " ++ sigOf name params, []⟩,
         ⟨.stop, chars "End", []⟩,
         ⟨.cond, chars "if " ++ test, []⟩]⟩ 0 2 =
      ⟨sigOf name params,
       [⟨.start, chars "Start: " ++ sigOf name params, [2]⟩,
        ⟨.stop, chars "End", []⟩,
        ⟨.cond, chars "if " ++ test, []⟩]⟩ := rfl
  have h3 : buildBlock ⟨sigOf name params,
        [⟨.start, chars "Start: " ++ sigOf name params, [2]⟩,
         ⟨.stop, chars "End", []⟩,
         ⟨.cond, chars "if " ++ test, []⟩]⟩ 2 [.ret value] =
      (⟨sigOf name params,
        [⟨.start, chars "Start: " ++ sigOf name params, [2]⟩,
         ⟨.stop, chars "End", []⟩,
         ⟨.cond, chars "if " ++ test, [3]⟩,
         ⟨.op, chars "return " ++ value, [1]⟩]⟩, 3) := by
    simp only [buildBlock]
    rfl
  have h4 : buildStmt ⟨sigOf name params,
        [⟨.start, chars "Start: " ++ sigOf name params, []⟩,
         ⟨.stop, chars "End", []⟩]⟩ 0 (.ifS test [.ret value] []) =
      (⟨sigOf name params,
        [⟨.start, chars "Start: " ++ sigOf name params, [2]⟩,
         ⟨.stop, chars "End", []⟩,
         ⟨.cond, chars "if " ++ test, [3, 4]⟩,
         ⟨.op, chars "return " ++ value, [1, 4]⟩,
         ⟨.op, chars "merge", []⟩]⟩, 4) := by
    simp only [buildStmt, h1, h2, h3]
    rfl
  show (buildBlock (mkGraph (sigOf name params)) 0
      [.ifS test [.ret value] []]).1.link
    (buildBlock (mkGraph (sigOf name params)) 0 [.ifS test [.ret value] []]).2 1 = _
  rw [h0]
  simp only [buildBlock, h4]
  rfl

/-- C7: an empty statement sequence synthesizes to exactly
`Start -> End` with no operation or condition nodes, for both the
module entry point and the function entry point. -/
theorem c7_empty_scope (title name : List Char) (params : List (List Char)) :
    (buildModule title []).nodes.map Node.kind = [.start, .stop] ∧
    (buildModule title []).nodes.map Node.nexts = [[1], []] ∧
    (buildFunction name params []).nodes.map Node.kind = [.start, .stop] ∧
    (buildFunction name params []).nodes.map Node.nexts = [[1], []] := by
  have hm : buildModule title [] =
      ⟨title, [⟨.start, chars "Start: " ++ title, [1]⟩,
               ⟨.stop, chars "End", []⟩]⟩ := by
    simp only [buildModule, buildBlock]
    rfl
  have hf : buildFunction name params [] =
      ⟨sigOf name params,
       [⟨.start, chars "Start: " ++ sigOf name params, [1]⟩,
        ⟨.stop, chars "End", []⟩]⟩ := by
    simp only [buildFunction, buildBlock]
    rfl
  rw [hm, hf]
  exact ⟨rfl, rfl, rfl, rfl⟩

/-- C9: linking is idempotent — a second `link` of the same ordered
pair changes nothing, linking an already-linked pair is a no-op, and
linking a fresh pair appends exactly one occurrence of the target. -/
theorem c9_link_idempotent (g : Graph) (a b : Nat) (ha : a < g.nodes.length) :
    (g.link a b).link a b = g.link a b ∧
    (b ∈ nextsOf g a → g.link a b = g) ∧
    (b ∉ nextsOf g a →
      nextsOf (g.link a b) a = nextsOf g a ++ [b] ∧
      (nextsOf ((g.link a b).link a b) a).count b = 1) := by
  refine ⟨?_, ?_, ?_⟩
  · exact link_eq_of_mem (g.link a b) a b (mem_nextsOf_link g a b ha)
  · intro hb
    exact link_eq_of_mem g a b hb
  · intro hb
    have hself : nextsOf (g.link a b) a = nextsOf g a ++ [b] := by
      rw [nextsOf_link_self g a b ha, if_neg hb]
    refine ⟨hself, ?_⟩
    rw [link_eq_of_mem (g.link a b) a b (mem_nextsOf_link g a b ha), hself]
    rw [List.count_append]
    rw [List.count_eq_zero_of_not_mem hb]
    simp

/-- C9, witness: idempotent linking evaluated on the two-node graph
produced by graph construction. -/
theorem c9_witness :
    0 < (mkGraph (chars "t")).nodes.length ∧
    ((mkGraph (chars "t")).link 0 1).link 0 1 = (mkGraph (chars "t")).link 0 1 :=
  ⟨by decide, (c9_link_idempotent (mkGraph (chars "t")) 0 1 (by decide)).1⟩

/-- C8, counterexample: the module title is the file name followed by
`" (module)"`, not the bare file name, and a function's title is
`"name(params)"` without the `file::` prefix. -/
theorem c8_counterexample :
    ((buildForFile (chars "m.py") [.funcDef (chars "f") [chars "a"] []]).map
        Prod.fst = [chars "m.py (module)", chars "f(a)"]) ∧
    chars "m.py (module)" ≠ chars "m.py" ∧
    chars "f(a)" ≠ chars "m.py::f(a)" := by decide

/-- C5 (amended to the v2 builder): for a try statement with a
non-empty else clause, the else node is synthesized from the protected
body's tail (`p3.2`), the else clause's resulting tail (`q3.2`)
together with the handler tails (`p4.2`) — but not the protected
body's tail — are linked into the finally/after-try node (created at
index `target`). -/
theorem c5_else_replaces_try_tail (g : Graph) (last : Nat)
    (body : List Stmt) (handlers : List (List Char × List Stmt))
    (orelse finalbody : List Stmt)
    (p3 q1 q3 : Graph × Nat) (p4 : Graph × List Nat) (target : Nat)
    (hlen : 2 ≤ g.nodes.length) (_hlast : last < g.nodes.length)
    (htg : targetsOk g) (ho : orelse ≠ [])
    (hp3 : p3 = buildBlock ((g.add .op (chars "try")).1.link last
      (g.add .op (chars "try")).2) (g.add .op (chars "try")).2 body)
    (hp4 : p4 = buildHandlers p3.1 (g.add .op (chars "try")).2 handlers)
    (hq1 : q1 = p4.1.add .op (chars "else"))
    (hq3 : q3 = buildBlock (q1.1.link p3.2 q1.2) q1.2 orelse)
    (htarget : target = q3.1.nodes.length) :
    edgeIn (buildStmt g last (.tryS body handlers orelse finalbody)).1 p3.2 q1.2 ∧
    (nodeAt (buildStmt g last (.tryS body handlers orelse finalbody)).1 q1.2).label
      = chars "else" ∧
    edgeIn (buildStmt g last (.tryS body handlers orelse finalbody)).1 q3.2 target ∧
    (∀ h ∈ p4.2, edgeIn (buildStmt g last (.tryS body handlers orelse finalbody)).1
      h target) ∧
    ¬ edgeIn (buildStmt g last (.tryS body handlers orelse finalbody)).1
      p3.2 target := by
  have hoe : orelse.isEmpty = false := by
    rcases orelse with _ | ⟨s, rest⟩
    · exact absurd rfl ho
    · rfl
  have hhdr : (g.add .op (chars "try")).2 = g.nodes.length := snd_add g .op _
  obtain ⟨hbg, hbt, hblt⟩ := buildBlock_grows
    ((g.add .op (chars "try")).1.link last (g.add .op (chars "try")).2)
    (g.add .op (chars "try")).2 (by rw [length_addLink]; omega) body
  rw [← hp3] at hbg hbt hblt
  have hG2len : ((g.add .op (chars "try")).1.link last
      (g.add .op (chars "try")).2).nodes.length = g.nodes.length + 1 :=
    length_addLink g last .op _
  have hGp3 : Grows g last p3.1 := by
    rw [hp3]
    exact (grows_addLink g last .op _).trans (hp3 ▸ hbg) (Or.inr (by omega))
  have hp3len : g.nodes.length + 1 ≤ p3.1.nodes.length := by
    rw [← hG2len]
    exact hbg.len_mono
  have htt_lt : p3.2 < p3.1.nodes.length := by
    rcases hblt with h | h
    · omega
    · exact h
  obtain ⟨hhg, hhts⟩ := buildHandlers_grows p3.1 (g.add .op (chars "try")).2
    (by omega) handlers
  rw [← hp4] at hhg hhts
  have hGp4 : Grows g last p4.1 := hGp3.trans hhg (Or.inr (by omega))
  have hp4len : p3.1.nodes.length ≤ p4.1.nodes.length := hhg.len_mono
  have hq12 : q1.2 = p4.1.nodes.length := by rw [hq1, snd_add]
  have hq1len : q1.1.nodes.length = p4.1.nodes.length + 1 := by
    rw [hq1, length_add]
  have hq2len : (q1.1.link p3.2 q1.2).nodes.length = p4.1.nodes.length + 1 := by
    rw [length_link, hq1len]
  obtain ⟨heg, het, helt⟩ := buildBlock_grows (q1.1.link p3.2 q1.2) q1.2
    (by omega) orelse
  rw [← hq3] at heg het helt
  have hGq2 : Grows g last (q1.1.link p3.2 q1.2) := by
    refine Grows.linkN q1.1 p3.2 q1.2 ?_ ?_ (by omega)
    · rw [hq1]
      exact Grows.addN _ .op _ hGp4
    · rcases hbt with h | h
      · exact Or.inr (by omega)
      · exact Or.inr (by omega)
  have hGq3 : Grows g last q3.1 := hGq2.trans heg (Or.inr (by omega))
  have hq3len : p4.1.nodes.length + 1 ≤ q3.1.nodes.length := by
    rw [← hq2len]
    exact heg.len_mono
  have het_lt : q3.2 < q3.1.nodes.length := by
    rcases helt with h | h
    · omega
    · exact h
  have het_ge : p3.1.nodes.length ≤ q3.2 := by
    rcases het with h | h
    · omega
    · omega
  have htgq3 : targetsOk q3.1 := hGq3.tOk htg
  have he0 : edgeIn (q1.1.link p3.2 q1.2) p3.2 q1.2 :=
    mem_nextsOf_link q1.1 p3.2 q1.2 (by omega)
  have he1 : edgeIn q3.1 p3.2 q1.2 := heg.edge_mono _ _ he0
  have hl1 : (nodeAt q3.1 q1.2).label = chars "else" := by
    rw [heg.label_eq q1.2 (by omega), label_link, hq1, snd_add, nodeAt_add_self]
  have hts_gt : ∀ h ∈ p4.2, p3.1.nodes.length ≤ h ∧ h < p4.1.nodes.length :=
    fun h hh => hhts h hh
  -- unfold the try rule with a non-empty else clause
  simp only [buildStmt, hoe, Bool.false_eq_true, if_false, ← hp3, ← hp4]
  rw [← hq1, ← hq3]
  by_cases hf : finalbody.isEmpty = true
  · rw [if_pos hf]
    dsimp only
    have hM : (q3.1.add .op (chars "after try")).2 = target := by
      rw [snd_add, htarget]
    have hMlen : (q3.1.add .op (chars "after try")).1.nodes.length =
        q3.1.nodes.length + 1 := length_add q3.1 .op _
    refine ⟨?_, ?_, ?_, ?_, ?_⟩
    · refine edgeIn_linkAll_mono _ _ _ _ _ ?_
      exact (edgeIn_add _ .op _ _ _).2 he1
    · rw [label_linkAll, nodeAt_add_lt _ .op _ q1.2 (by omega), hl1]
    · rw [← hM]
      exact edgeIn_linkAll_of_mem _ _ _ q3.2 (by simp) (by omega)
    · intro h hh
      rw [← hM]
      obtain ⟨h1, h2⟩ := hts_gt h hh
      exact edgeIn_linkAll_of_mem _ _ _ h (by simp [hh]) (by omega)
    · intro hcon
      rcases edgeIn_linkAll_elim _ _ _ p3.2 target hcon with h | ⟨hmem, _⟩
      · have h2 : edgeIn q3.1 p3.2 target := (edgeIn_add _ .op _ _ _).1 h
        have := htgq3 p3.2 target h2
        omega
      · rcases List.mem_cons.1 hmem with h | h
        · omega
        · obtain ⟨h1, _⟩ := hts_gt p3.2 h
          omega
  · rw [if_neg hf]
    have hF : (q3.1.add .op (chars "finally")).2 = target := by
      rw [snd_add, htarget]
    have hFlen : (q3.1.add .op (chars "finally")).1.nodes.length =
        q3.1.nodes.length + 1 := length_add q3.1 .op _
    set G7 := linkAll (q3.1.add .op (chars "finally")).1 (q3.2 :: p4.2)
      (q3.1.add .op (chars "finally")).2 with hG7
    have hG7len : G7.nodes.length = q3.1.nodes.length + 1 := by
      rw [hG7, length_linkAll, hFlen]
    obtain ⟨hfg, _, _⟩ := buildBlock_grows G7 (q3.1.add .op (chars "finally")).2
      (by omega) finalbody
    refine ⟨?_, ?_, ?_, ?_, ?_⟩
    · refine hfg.edge_mono _ _ ?_
      rw [hG7]
      exact edgeIn_linkAll_mono _ _ _ _ _ ((edgeIn_add _ .op _ _ _).2 he1)
    · rw [hfg.label_eq q1.2 (by omega), hG7, label_linkAll,
        nodeAt_add_lt _ .op _ q1.2 (by omega), hl1]
    · refine hfg.edge_mono _ _ ?_
      rw [hG7, ← hF]
      exact edgeIn_linkAll_of_mem _ _ _ q3.2 (by simp) (by omega)
    · intro h hh
      obtain ⟨h1, h2⟩ := hts_gt h hh
      refine hfg.edge_mono _ _ ?_
      rw [hG7, ← hF]
      exact edgeIn_linkAll_of_mem _ _ _ h (by simp [hh]) (by omega)
    · intro hcon
      have hsrc := hfg.edge_src p3.2 target hcon
      rcases hsrc with h | h | h
      · rw [hG7] at h
        rcases edgeIn_linkAll_elim _ _ _ p3.2 target h with h2 | ⟨hmem, _⟩
        · have h3 : edgeIn q3.1 p3.2 target := (edgeIn_add _ .op _ _ _).1 h2
          have := htgq3 p3.2 target h3
          omega
        · rcases List.mem_cons.1 hmem with h4 | h4
          · omega
          · obtain ⟨h5, _⟩ := hts_gt p3.2 h4
            omega
      · rw [hF, htarget] at h
        omega
      · rw [hG7len] at h
        omega

/-- C5, witness: the v2 else-replacement evaluated on a concrete
try/except/else statement. -/
theorem c5_witness :
    2 ≤ (mkGraph (chars "t")).nodes.length ∧
    edgeIn (buildStmt (mkGraph (chars "t")) 0
      (.tryS [.simple (chars "a")] [(chars "E", [.simple (chars "h")])]
        [.simple (chars "e")] [])).1 3 6 ∧
    ¬ edgeIn (buildStmt (mkGraph (chars "t")) 0
      (.tryS [.simple (chars "a")] [(chars "E", [.simple (chars "h")])]
        [.simple (chars "e")] [])).1 3 8 := by
  have h := c5_else_replaces_try_tail (mkGraph (chars "t")) 0
    [.simple (chars "a")] [(chars "E", [.simple (chars "h")])]
    [.simple (chars "e")] []
    (⟨chars "t", [⟨.start, chars "Start: t", [2]⟩, ⟨.stop, chars "End", []⟩,
       ⟨.op, chars "try", [3]⟩, ⟨.op, chars "a", []⟩]⟩, 3)
    (⟨chars "t", [⟨.start, chars "Start: t", [2]⟩, ⟨.stop, chars "End", []⟩,
       ⟨.op, chars "try", [3, 4]⟩, ⟨.op, chars "a", []⟩,
       ⟨.op, chars "except E", [5]⟩, ⟨.op, chars "h", []⟩,
       ⟨.op, chars "else", []⟩]⟩, 6)
    (⟨chars "t", [⟨.start, chars "Start: t", [2]⟩, ⟨.stop, chars "End", []⟩,
       ⟨.op, chars "try", [3, 4]⟩, ⟨.op, chars "a", [6]⟩,
       ⟨.op, chars "except E", [5]⟩, ⟨.op, chars "h", []⟩,
       ⟨.op, chars "else", [7]⟩, ⟨.op, chars "e", []⟩]⟩, 7)
    (⟨chars "t", [⟨.start, chars "Start: t", [2]⟩, ⟨.stop, chars "End", []⟩,
       ⟨.op, chars "try", [3, 4]⟩, ⟨.op, chars "a", []⟩,
       ⟨.op, chars "except E", [5]⟩, ⟨.op, chars "h", []⟩]⟩, [5])
    8
    (by decide) (by decide) (targetsOk_mkGraph (chars "t"))
    (List.cons_ne_nil _ _)
    (by decide) (by decide) (by decide) (by decide) (by decide)
  exact ⟨by decide, h.1, h.2.2.2.2⟩

/-- C5, counterexample: the V1 builder ignores a try statement's else
clause — the else body (`e`) is never synthesized, and the protected
body's tail (node 3) is linked straight into the after-try merge
(node 6). -/
theorem c5_counterexample :
    ((buildModuleV1 (chars "t")
        [.tryS [.simple (chars "a")] [(chars "E", [.simple (chars "h")])]
          [.simple (chars "e")] []]).nodes.map Node.label =
      [chars "Start: t", chars "End", chars "try", chars "a",
       chars "except E", chars "h", chars "after try"]) ∧
    edgeIn (buildModuleV1 (chars "t")
        [.tryS [.simple (chars "a")] [(chars "E", [.simple (chars "h")])]
          [.simple (chars "e")] []]) 3 6 := by decide

theorem take3_toMermaidLines (g : Graph) (hlen : 2 ≤ g.nodes.length)
    (h0k : (nodeAt g 0).kind = .start)
    (h0l : (nodeAt g 0).label = chars "Start: " ++ g.title)
    (h1k : (nodeAt g 1).kind = .stop)
    (h1l : (nodeAt g 1).label = chars "End") :
    (toMermaidLines g).take 3 =
      [chars "flowchart TD",
       chars "    n0([ " ++ escMermaidLabel (chars "Start: " ++ g.title) ++ chars " ])",
       chars "    n1([ " ++ escMermaidLabel (chars "End") ++ chars " ])"] := by
  rcases hg : g.nodes with _ | ⟨a, _ | ⟨b, rest⟩⟩
  · rw [hg] at hlen
    simp at hlen
  · rw [hg] at hlen
    simp at hlen
  · have ha : a = nodeAt g 0 := by
      simp [nodeAt, hg]
    have hb : b = nodeAt g 1 := by
      simp [nodeAt, hg]
    have e0 : chars "    " ++ fmtNode 0 a =
        chars "    n0([ " ++ escMermaidLabel (chars "Start: " ++ g.title) ++
          chars " ])" := by
      unfold fmtNode
      rw [← ha] at h0k h0l
      rw [h0k, h0l]
      simp [nodeId, chars, List.append_assoc]
      rw [show (Nat.repr 0).data = ['0'] from rfl]
      rfl
    have e1 : chars "    " ++ fmtNode 1 b =
        chars "    n1([ " ++ escMermaidLabel (chars "End") ++ chars " ])" := by
      unfold fmtNode
      rw [← hb] at h1k h1l
      rw [h1k, h1l]
      simp [nodeId, chars, List.append_assoc]
      rw [show (Nat.repr 1).data = ['1'] from rfl]
      rfl
    unfold toMermaidLines
    rw [hg]
    simp only [declLines, List.cons_append, List.take_succ_cons, List.take_zero]
    rw [e0, e1]

/-- C10: in every graph state the program can reach, node 0 is the
start node (label `"Start: " + title`) and node 1 the end node (label
`"End"`); serialized, they are the first two node declarations, with
ids `n0`/`n1`, stadium shape, and the title passed through label
escaping. -/
theorem c10_start_end_invariant (g : Graph) (h : Reachable g) :
    2 ≤ g.nodes.length ∧
    (nodeAt g 0).kind = .start ∧
    (nodeAt g 0).label = chars "Start: " ++ g.title ∧
    (nodeAt g 1).kind = .stop ∧
    (nodeAt g 1).label = chars "End" ∧
    (toMermaidLines g).take 3 =
      [chars "flowchart TD",
       chars "    n0([ " ++ escMermaidLabel (chars "Start: " ++ g.title) ++ chars " ])",
       chars "    n1([ " ++ escMermaidLabel (chars "End") ++ chars " ])"] := by
  have hmain : 2 ≤ g.nodes.length ∧
      (nodeAt g 0).kind = .start ∧
      (nodeAt g 0).label = chars "Start: " ++ g.title ∧
      (nodeAt g 1).kind = .stop ∧
      (nodeAt g 1).label = chars "End" := by
    induction h with
    | init title => exact ⟨le_rfl, rfl, rfl, rfl, rfl⟩
    | addNode g k l hg ih =>
      obtain ⟨ih1, ih2, ih3, ih4, ih5⟩ := ih
      rw [length_add, title_add, nodeAt_add_lt g k l 0 (by omega),
        nodeAt_add_lt g k l 1 (by omega)]
      exact ⟨by omega, ih2, ih3, ih4, ih5⟩
    | linkNodes g a b hg ih =>
      obtain ⟨ih1, ih2, ih3, ih4, ih5⟩ := ih
      rw [length_link, title_link, kind_link, label_link, kind_link, label_link]
      exact ⟨ih1, ih2, ih3, ih4, ih5⟩
  obtain ⟨h1, h2, h3, h4, h5⟩ := hmain
  exact ⟨h1, h2, h3, h4, h5, take3_toMermaidLines g h1 h2 h3 h4 h5⟩

/-- C10, witness: the invariant evaluated on a concrete reachable
graph (a fresh graph with one extra op node and a link). -/
theorem c10_witness :
    Reachable (((mkGraph (chars "m")).add .op (chars "x")).1.link 0 2) ∧
    (nodeAt (((mkGraph (chars "m")).add .op (chars "x")).1.link 0 2) 0).label =
      chars "Start: " ++ (((mkGraph (chars "m")).add .op (chars "x")).1.link 0 2).title ∧
    ((toMermaidLines (((mkGraph (chars "m")).add .op (chars "x")).1.link 0 2)).take 3 =
      [chars "flowchart TD",
       chars "    n0([ " ++ escMermaidLabel (chars "Start: " ++
         (((mkGraph (chars "m")).add .op (chars "x")).1.link 0 2).title) ++ chars " ])",
       chars "    n1([ " ++ escMermaidLabel (chars "End") ++ chars " ])"]) := by
  have hr : Reachable (((mkGraph (chars "m")).add .op (chars "x")).1.link 0 2) :=
    Reachable.linkNodes _ 0 2 (Reachable.addNode _ .op (chars "x")
      (Reachable.init (chars "m")))
  obtain ⟨_, _, h3, _, _, h6⟩ := c10_start_end_invariant _ hr
  exact ⟨hr, h3, h6⟩

/-- C1, counterexample: the V1 serializer's label escaping applies only
the backtick and newline substitutions, so a double quote (or a
backslash) in a label is left unescaped, unlike the five-substitution
escaping of the v2 serializer. -/
theorem c1_counterexample :
    escMermaidLabelV1 ['\"'] = ['\"'] ∧
    escMermaidLabel ['\"'] = ['\\', '\"'] ∧
    escMermaidLabelV1 ['\\'] = ['\\'] ∧
    escMermaidLabel ['\\'] = ['\\', '\\'] ∧
    fmtNodeV1 2 ⟨.op, ['\"'], []⟩ ≠ fmtNode 2 ⟨.op, ['\"'], []⟩ := by decide

/-- C1 (amended, for the v2 serializer): `_esc_mermaid_label` applies
exactly the five substitutions of the escaping contract, in exactly
the stated order — backslash doubling, quote escaping, newline
normalization plus embedded-newline escaping, angle-bracket entities,
backtick escaping. -/
theorem c1_escape_order (s : List Char) :
    escMermaidLabel s = specSub5 (specSub4 (specSub3 (specSub2 (specSub1 s)))) :=
  esc_eq_subs s

/-- C3, counterexample: the escaping is not injective (`\r` and `\n`
escape identically), and undoing the five substitutions in reverse
order fails to reproduce a label containing a carriage return, a
backslash followed by `n`, or a literal `&lt;`. -/
theorem c3_counterexample :
    escMermaidLabel ['\r'] = escMermaidLabel ['\n'] ∧
    ('\r' : Char) ≠ '\n' ∧
    unescMermaidLabel (escMermaidLabel ['\r']) ≠ ['\r'] ∧
    unescMermaidLabel (escMermaidLabel ['\\', 'n']) ≠ ['\\', 'n'] ∧
    unescMermaidLabel (escMermaidLabel (chars "&lt;")) ≠ chars "&lt;" := by decide

/-- C3 (amended): on labels free of carriage returns, ampersands, and
backslash-then-`n` pairs, undoing the five substitutions of
`_esc_mermaid_label` in reverse order reproduces the label exactly,
and the escaping is injective on that class of labels. -/
theorem c3_roundtrip (s : List Char) (h : safeLabel s = true) :
    unescMermaidLabel (escMermaidLabel s) = s ∧
    ∀ t : List Char, safeLabel t = true →
      escMermaidLabel s = escMermaidLabel t → s = t := by
  refine ⟨unesc_esc s h, ?_⟩
  intro t ht he
  have hs := unesc_esc s h
  rw [he, unesc_esc t ht] at hs
  exact hs.symm

/-- C3 witness: a safe label containing a backslash, a quote, a
linebreak, angle brackets and a backtick survives the round trip. -/
theorem c3_witness :
    safeLabel (chars "a\\b\"c\nd<e>`f") = true ∧
    unescMermaidLabel (escMermaidLabel (chars "a\\b\"c\nd<e>`f")) =
      chars "a\\b\"c\nd<e>`f" :=
  ⟨by decide, (c3_roundtrip (chars "a\\b\"c\nd<e>`f") (by decide)).1⟩

end P2M
